import Mathlib

/-!
Verification of the YouthScheduleAutomator scheduling engine
(`scheduling/models.py`, `scheduling/rules.py`, `scheduling/strategies.py`,
`scheduling/scheduler.py`) against its natural-language specification.

The Python code is shallowly embedded: pure functions become Lean
functions, the mutable dictionaries threaded through the scheduler become
explicit state records, Python `datetime.date` values become a record of
(year, month, day) with proleptic-Gregorian ordinal arithmetic, and the
`random` module is modelled as an explicit oracle tape that the
deterministic strategies never consult.
-/

/-! ## Stable sorting

Python's `sorted` / `list.sort` is a stable comparison sort.  We embed it
as a stable insertion sort parameterised by a strict comparison `lt`:
an element is inserted after every earlier element that is strictly
smaller, hence before every element it ties with, which is exactly
Python's stability guarantee. -/

def sInsert (lt : α → α → Bool) (a : α) : List α → List α
  | [] => [a]
  | b :: l => if lt b a then b :: sInsert lt a l else a :: b :: l

def sSort (lt : α → α → Bool) : List α → List α
  | [] => []
  | a :: l => sInsert lt a (sSort lt l)

/-! ## String ordering

Python compares `str` values lexicographically by code point.  The
library order on `String` does not reduce inside the kernel, so we embed
the comparison directly on the character list. -/

def strLexLt : List Char → List Char → Bool
  | [], [] => false
  | [], _ :: _ => true
  | _ :: _, [] => false
  | a :: s, b :: t =>
    if a.toNat < b.toNat then true
    else if b.toNat < a.toNat then false
    else strLexLt s t

def strLtB (s t : String) : Bool := strLexLt s.data t.data

/-! ## Dates (`datetime.date`)

A Python `date` is a (year, month, day) triple in the proleptic Gregorian
calendar.  Comparison is lexicographic; `d1 - d2` (a `timedelta`) is the
difference of ordinals; `weekday()` returns Monday = 0 … Sunday = 6. -/

structure PyDate where
  year : Nat
  month : Nat
  day : Nat
deriving DecidableEq, Repr

def isLeap (y : Nat) : Bool := (y % 4 == 0 && y % 100 != 0) || y % 400 == 0

def daysInMonth (y m : Nat) : Nat :=
  match m with
  | 1 => 31 | 2 => if isLeap y then 29 else 28 | 3 => 31
  | 4 => 30 | 5 => 31 | 6 => 30 | 7 => 31 | 8 => 31
  | 9 => 30 | 10 => 31 | 11 => 30 | 12 => 31
  | _ => 0

def daysBeforeYear (y : Nat) : Nat :=
  365 * (y - 1) + (y - 1) / 4 - (y - 1) / 100 + (y - 1) / 400

def daysBeforeMonth (y m : Nat) : Nat :=
  ((List.range (m - 1)).map (fun k => daysInMonth y (k + 1))).sum

/-- Proleptic Gregorian ordinal, as in `date.toordinal()`: 0001-01-01 is day 1. -/
def PyDate.ordinal (d : PyDate) : Nat :=
  daysBeforeYear d.year + daysBeforeMonth d.year d.month + d.day

/-- Weekday with Monday = 0, as in `date.weekday()`. -/
def pyWeekday (y m d : Nat) : Nat :=
  (daysBeforeYear y + daysBeforeMonth y m + d + 6) % 7

def PyDate.weekday (d : PyDate) : Nat := pyWeekday d.year d.month d.day

/-- Lexicographic strict order on dates, matching Python `date.__lt__`. -/
def dateLtB (a b : PyDate) : Bool :=
  a.year < b.year ||
    (a.year == b.year && (a.month < b.month ||
      (a.month == b.month && a.day < b.day)))

def dateLeB (a b : PyDate) : Bool := dateLtB a b || a == b

/-- `(a - b).days` for two dates, as an integer number of days. -/
def diffDays (a b : PyDate) : Int := (a.ordinal : Int) - (b.ordinal : Int)

def yearOfOrdinal (o : Nat) : Nat :=
  (List.range 10000).foldl (fun acc y => if daysBeforeYear (y + 1) < o then y + 1 else acc) 1

def dateOfOrdinal (o : Nat) : PyDate :=
  let y := yearOfOrdinal o
  let doy := o - daysBeforeYear y
  let m := (List.range 12).foldl (fun acc k => if daysBeforeMonth y (k + 1) < doy then k + 1 else acc) 1
  ⟨y, m, doy - daysBeforeMonth y m⟩

/-- `d + timedelta(days = n)`. -/
def addDays (d : PyDate) (n : Nat) : PyDate := dateOfOrdinal (d.ordinal + n)

/-! ## Core data models (`scheduling/models.py`) -/

structure Leader where
  name : String
  groups : List String
  availability : List String
  weight : Int
deriving DecidableEq, Repr

def weekdayTokens : List String := ["mon", "tue", "wed", "thu", "fri", "sat", "sun"]

def padTo (w : Nat) (s : String) : String :=
  String.mk (List.replicate (w - s.length) '0') ++ s

/-- ISO format `YYYY-MM-DD`, as in `date.isoformat()`. -/
def PyDate.isoformat (d : PyDate) : String :=
  padTo 4 (toString d.year) ++ "-" ++ padTo 2 (toString d.month) ++ "-" ++ padTo 2 (toString d.day)

/-- `Leader.is_available_on`: empty availability means always available;
otherwise the ISO date string or the lowercased weekday token must be listed. -/
def Leader.is_available_on (ld : Leader) (d : PyDate) : Bool :=
  if ld.availability.isEmpty then true
  else if decide (d.isoformat ∈ ld.availability) then true
  else if decide (weekdayTokens.getD d.weekday "" ∈ ld.availability) then true
  else false

/-- The `Group` dataclass (named `PyGroup` here because `Group` is taken by
the mathematics library). -/
structure PyGroup where
  name : String
  members : List String
deriving DecidableEq, Repr

structure Event where
  date : PyDate
  kind : String
  description : String
  groups_involved : List String
  responsibility_mode : String := "none"
  responsible_group : Option String := none
  leader_required : Bool := false
  rotation_pool : Option (List String) := none
  start_time : Option String := none
  duration_minutes : Option Int := none
deriving DecidableEq, Repr

structure Assignment where
  event : Event
  leaders : List Leader
  responsible_group : Option String
deriving DecidableEq, Repr

structure Schedule where
  assignments : List Assignment
deriving DecidableEq, Repr

/-- `Schedule.filter_dates`: keep assignments with `start <= a.event.date <= end`. -/
def Schedule.filter_dates (sch : Schedule) (start stop : PyDate) : Schedule :=
  ⟨sch.assignments.filter (fun a => dateLeB start a.event.date && dateLeB a.event.date stop)⟩

/-! ## Recurring rules (`scheduling/rules.py`) -/

structure RawResp where
  mode : Option String := none
  rotation_pool : Option (List String) := none
deriving DecidableEq, Repr

structure RecurringRule where
  name : String
  frequency : String
  weekday : Nat
  nth : Int
  kind : String
  description : Option String := none
  groups_involved : Option (List String) := none
  responsibility : Option RawResp := none
  start_time : Option String := none
  duration_minutes : Option Int := none
deriving DecidableEq, Repr

/-- The ascending list of dates of month `m` of year `y` falling on weekday
`w`: the month days produced by `calendar.Calendar().itermonthdates` after
filtering to the month itself and to the rule's weekday. -/
def monthWeekdayDates (y m w : Nat) : List PyDate :=
  ((List.range (daysInMonth y m)).map (· + 1)).filterMap
    (fun d => if pyWeekday y m d = w then some ⟨y, m, d⟩ else none)

/-- The `start`/`end` window check at the end of each month's iteration in
`generate_dates`: `continue` when the target falls before `start` or after
`end`, otherwise emit it. -/
def windowFilter (start stop : Option PyDate) (t : PyDate) : List PyDate :=
  if (match start with | some s => dateLtB t s | none => false) then []
  else if (match stop with | some e => dateLtB e t | none => false) then []
  else [t]

/-- One month's contribution inside `RecurringRule.generate_dates`: pick the
nth weekday occurrence (Python negative indexing for `nth < 0`), then drop
it when it falls outside the `[start, end]` window. -/
def ruleMonthDates (rule : RecurringRule) (y m : Nat)
    (start stop : Option PyDate) : List PyDate :=
  let month_days := monthWeekdayDates y m rule.weekday
  let target : Option PyDate :=
    if 0 < rule.nth then
      if (rule.nth : Int) ≤ (month_days.length : Int) then month_days.get? (rule.nth.toNat - 1)
      else none
    else
      if (rule.nth.natAbs : Nat) ≤ month_days.length then
        if 0 ≤ rule.nth then month_days.get? rule.nth.toNat
        else month_days.get? (month_days.length - rule.nth.natAbs)
      else none
  match target with
  | none => []
  | some t => windowFilter start stop t

/-- `RecurringRule.generate_dates(year, start, end)`: iterate the twelve
months of `year`. -/
def RecurringRule.generate_dates (rule : RecurringRule) (y : Nat)
    (start stop : Option PyDate) : List PyDate :=
  (List.range 12).flatMap (fun k => ruleMonthDates rule y (k + 1) start stop)

/-! ## Strategies (`scheduling/strategies.py`)

The scheduler threads one heterogeneous `state` dict through every
strategy call; its four keys become the fields below.  The dictionaries
keyed by leader name are embedded as total functions (Python's
`dict.get` with a default value). -/

structure StratState where
  rr_idx : Nat := 0
  fair_counts : String → Nat := fun _ => 0
  fair_last : String → Option PyDate := fun _ => none
  current_date : Option PyDate := none

/-- The selection loop of `round_robin`: `count` iterations, each taking
`leaders[idx % len(leaders)]` and incrementing `idx`; an empty pool breaks
out immediately. -/
def rrPick (leaders : List Leader) (idx : Nat) : Nat → List Leader
  | 0 => []
  | n + 1 =>
    if h : 0 < leaders.length then
      leaders.get ⟨idx % leaders.length, Nat.mod_lt _ h⟩ :: rrPick leaders (idx + 1) n
    else []

/-- `round_robin` strategy: cycle an index through the pool, persisting the
index in the shared state. -/
def round_robin (leaders : List Leader) (count : Nat) (st : StratState) :
    List Leader × StratState :=
  let idx := st.rr_idx
  (rrPick leaders idx count,
   { st with rr_idx := if leaders.isEmpty then idx else idx + count })

/-- Days since a leader's last `fair` assignment, or the sentinel 10000 when
there is no current date or no recorded previous assignment. -/
def daysSinceOf (st : StratState) (ld : Leader) : Int :=
  match st.current_date, st.fair_last ld.name with
  | some c, some prev => diffDays c prev
  | _, _ => 10000

/-- The strict comparison of `fair`'s sort key
`(count, -days_since, name)`. -/
def fairKeyLt (st : StratState) (a b : Leader) : Bool :=
  st.fair_counts a.name < st.fair_counts b.name ||
    (st.fair_counts a.name == st.fair_counts b.name &&
      (-(daysSinceOf st a) < -(daysSinceOf st b) ||
        (-(daysSinceOf st a) == -(daysSinceOf st b) && strLtB a.name b.name)))

/-- The selection loop of `fair`: walk the ordered candidates, skip names
already used, stop once `count` leaders are chosen (`count` is the number
still needed; the loop body stops after an append makes it 0). -/
def fairSelect (count : Nat) (used : List String) : List Leader → List Leader
  | [] => []
  | ld :: rest =>
    if decide (ld.name ∈ used) then fairSelect count used rest
    else ld :: (if count ≤ 1 then [] else fairSelect (count - 1) (ld.name :: used) rest)

/-- State update at the end of `fair`: bump each chosen leader's count and
record the current date, when a current date is set. -/
def fairUpdate (st : StratState) (chosen : List Leader) : StratState :=
  match st.current_date with
  | none => st
  | some c =>
    chosen.foldl
      (fun s ld =>
        { s with
          fair_counts := fun n => if n = ld.name then s.fair_counts ld.name + 1 else s.fair_counts n,
          fair_last := fun n => if n = ld.name then some c else s.fair_last n })
      st

/-- `fair` strategy: lowest total assignment count first, then longest idle
time, then name; a 5-day blackout filter is applied first and waived when
it leaves fewer than `count` candidates.  All call sites pass a
non-negative count, embedded as `Nat` (Python's `count <= 0` guard becomes
`count == 0`). -/
def fair (leaders : List Leader) (count : Nat) (st : StratState) :
    List Leader × StratState :=
  if leaders.isEmpty || count == 0 then ([], st)
  else
    let leader_infos := leaders.map (fun ld => (ld, daysSinceOf st ld))
    let primary := (leader_infos.filter (fun p => 5 ≤ p.2)).map (·.1)
    let candidate_pool :=
      if count ≤ primary.length then primary else leader_infos.map (·.1)
    let ordered := sSort (fairKeyLt st) candidate_pool
    let chosen := fairSelect count [] ordered
    (chosen, fairUpdate st chosen)

/-- Contract of `random.sample(list(leaders), k = min(count, len(leaders)))`:
some `min count len` elements drawn without replacement. -/
def RandomPickSpec (leaders : List Leader) (count : Nat) (r : List Leader) : Prop :=
  r.length = min count leaders.length ∧ r.Subperm leaders

/-- The multiplicity expansion at the start of `weighted`:
`pool.extend([ld] * max(1, ld.weight))`. -/
def expandWeighted (leaders : List Leader) : List Leader :=
  leaders.flatMap (fun ld => List.replicate (max 1 ld.weight).toNat ld)

/-- The dedup loop of `weighted` operating on the shuffled expanded pool.
`Leader` is `@dataclass(slots=True)` with the default `eq=True` and
`frozen=False`, so Python sets `Leader.__hash__` to `None`; the loop's very
first membership test `candidate in seen` on the `set` therefore raises
`TypeError: unhashable type: 'Leader'` whenever the pool is non-empty.  An
empty pool never enters the loop and returns `[]`. -/
def weightedDedupLoop (shuffled : List Leader) (count : Nat) :
    Except String (List Leader) :=
  match shuffled, count with
  | [], _ => .ok []
  | _ :: _, _ => .error "TypeError: unhashable type: Leader"

/-- `weighted` strategy: expand by weight, shuffle (any permutation the
`random` module may produce), then dedup — which raises, see
`weightedDedupLoop`. -/
def WeightedSpec (leaders : List Leader) (count : Nat)
    (r : Except String (List Leader)) : Prop :=
  ∃ shuffled, shuffled.Perm (expandWeighted leaders) ∧
    r = weightedDedupLoop shuffled count

/-! ## The random oracle and strategy wrappers

`import random` gives the strategies a shared source of randomness; it is
embedded as a tape of naturals with a read position.  A strategy as called
by the scheduler maps (pool, count, state, rng) to (chosen, state, rng);
`fair` and `round_robin` never touch the tape. -/

structure RngState where
  tape : Nat → Nat
  pos : Nat

def StrategyFn :=
  List Leader → Nat → StratState → RngState → List Leader × StratState × RngState

def fairS : StrategyFn := fun l c s r =>
  ((fair l c s).1, (fair l c s).2, r)

def roundRobinS : StrategyFn := fun l c s r =>
  ((round_robin l c s).1, (round_robin l c s).2, r)

def anyLeader : Leader := ⟨"", [], [], 1⟩

/-- Sampling without replacement driven by the oracle tape, realising
`random.sample`. -/
def sampleNoReplace (tape : Nat → Nat) (pos : Nat) (pool : List Leader) :
    Nat → List Leader
  | 0 => []
  | k + 1 =>
    if pool.isEmpty then []
    else
      let i := tape pos % pool.length
      pool.getD i anyLeader ::
        sampleNoReplace tape (pos + 1) (pool.take i ++ pool.drop (i + 1)) k

def random_pick : StrategyFn := fun l c s r =>
  (sampleNoReplace r.tape r.pos l (min c l.length), s,
   ⟨r.tape, r.pos + min c l.length⟩)

/-! ## Scheduler (`scheduling/scheduler.py`) -/

def GAP_DAYS : Int := 5

/-! ### Group-rotation pre-pass (`assign_leaders`, lines 75-97)

Events are bucketed by `(year, month)` in a dict (insertion order = order
of first appearance), each bucket is sorted by `(date, description)`, and
every group-mode event with a non-empty rotation pool picks the candidate
minimising `(already-used-this-month, total-usage, name)`.  The pre-pass
is embedded as a fold producing, per original event index, the chosen
group. -/

def monthKeyOf (e : Event) : Nat × Nat := (e.date.year, e.date.month)

def insertKeyIfAbsent (ks : List (Nat × Nat)) (k : Nat × Nat) : List (Nat × Nat) :=
  if k ∈ ks then ks else ks ++ [k]

def monthKeysOf (events : List Event) : List (Nat × Nat) :=
  events.foldl (fun ks e => insertKeyIfAbsent ks (monthKeyOf e)) []

/-- Strict comparison for `sorted(evs, key = lambda e: (e.date, e.description))`. -/
def evDateDescLt (a b : Nat × Event) : Bool :=
  dateLtB a.2.date b.2.date ||
    (a.2.date == b.2.date && strLtB a.2.description b.2.description)

/-- `ev.responsibility_mode == "group" and ev.rotation_pool` (a `None` or
empty pool is falsy). -/
def isGroupRotEvent (e : Event) : Bool :=
  e.responsibility_mode == "group" &&
    (match e.rotation_pool with | some (_ :: _) => true | _ => false)

/-- Strict comparison of the candidate tuples
`(g in month_used, global_usage.get(g, 0), g)`; sorting the pool by this
key and taking the head is the source's `candidates.sort(...)` followed by
`candidates[0][2]`. -/
def rotCandLt (monthUsed : List String) (usage : String → Nat) (a b : String) : Bool :=
  (!(decide (a ∈ monthUsed)) && decide (b ∈ monthUsed)) ||
    (decide (a ∈ monthUsed) == decide (b ∈ monthUsed) &&
      (usage a < usage b || (usage a == usage b && strLtB a b)))

/-- `month_used.add(chosen)` (a Python set: adding an existing element is a
no-op, so the list stays duplicate-free). -/
def insertUsed (mu : List String) (g : String) : List String :=
  if g ∈ mu then mu else mu ++ [g]

structure RotState where
  month_used : List String := []
  global_usage : String → Nat := fun _ => 0
  choices : List (Nat × String) := []

def rotMonthStep (s : RotState) (ie : Nat × Event) : RotState :=
  if isGroupRotEvent ie.2 then
    match sSort (rotCandLt s.month_used s.global_usage) (ie.2.rotation_pool.getD []) with
    | [] => s
    | g :: _ =>
      { month_used := insertUsed s.month_used g,
        global_usage := fun n => if n = g then s.global_usage g + 1 else s.global_usage n,
        choices := s.choices ++ [(ie.1, g)] }
  else s

def rotBucket (events : List Event) (k : Nat × Nat) : List (Nat × Event) :=
  events.enum.filter (fun ie => monthKeyOf ie.2 == k)

/-- The complete pre-pass: per original event index, the responsible group
chosen for it (group-mode events with a non-empty pool only). -/
def rotPrePass (events : List Event) : List (Nat × String) :=
  ((monthKeysOf events).foldl
      (fun s k => (sSort evDateDescLt (rotBucket events k)).foldl rotMonthStep
        { s with month_used := [] })
      {}).choices

/-- The event list after the pre-pass's in-place mutation of
`ev.responsible_group`. -/
def prePassEvents (events : List Event) : List Event :=
  let ch := rotPrePass events
  events.enum.map (fun ie =>
    match ch.lookup ie.1 with
    | some g => { ie.2 with responsible_group := some g }
    | none => ie.2)

/-! ### Leader pass (`assign_leaders`, lines 98-152) -/

def gapOkB (last : String → Option PyDate) (d : PyDate) (ld : Leader) : Bool :=
  match last ld.name with
  | none => true
  | some prev => GAP_DAYS ≤ diffDays d prev

/-- Eligibility for a combined event: serves one of the involved groups and
is available on the date. -/
def eligibleCombined (leaders : List Leader) (ev : Event) : List Leader :=
  leaders.filter (fun ld =>
    ld.groups.any (fun g => decide (g ∈ ev.groups_involved)) && ld.is_available_on ev.date)

/-- Eligibility for one group of a separate event. -/
def eligibleSeparate (leaders : List Leader) (grp : String) (d : PyDate) : List Leader :=
  leaders.filter (fun ld => decide (grp ∈ ld.groups) && ld.is_available_on d)

def setLast (f : String → Option PyDate) (nm : String) (d : PyDate) :
    String → Option PyDate :=
  fun n => if n = nm then some d else f n

/-- Python dict update: an existing key keeps its position, a new key is
appended. -/
def updateAssoc (m : List (String × Leader)) (k : String) (v : Leader) :
    List (String × Leader) :=
  if m.any (fun p => p.1 == k) then m.map (fun p => if p.1 == k then (k, v) else p)
  else m ++ [(k, v)]

/-- The `unique`/`seen` loop deduplicating `group_to_leader.values()` by
leader name. -/
def dictValuesUnique : List Leader → List String → List Leader
  | [], _ => []
  | ld :: rest, seen =>
    if decide (ld.name ∈ seen) then dictValuesUnique rest seen
    else ld :: dictValuesUnique rest (ld.name :: seen)

structure EngineState where
  strat_state : StratState
  last_assigned : String → Option PyDate
  rng : RngState
  out : List Assignment

/-- One group of the separate branch: per-group eligibility, gap filter
(soft: reverted when it empties the pool), a single-leader strategy call
when any candidate remains. -/
def sepStep (strat : StrategyFn) (leaders : List Leader) (d : PyDate)
    (s : List (String × Leader) × StratState × (String → Option PyDate) × RngState)
    (grp : String) :
    List (String × Leader) × StratState × (String → Option PyDate) × RngState :=
  let (g2l, st, last, rng) := s
  let eligible := eligibleSeparate leaders grp d
  let filtered := eligible.filter (gapOkB last d)
  let eligible2 := if filtered.isEmpty then eligible else filtered
  if eligible2.isEmpty then s
  else
    let (chosen, st2, rng2) := strat eligible2 1 st rng
    match chosen with
    | [] => (g2l, st2, last, rng2)
    | c :: _ => (updateAssoc g2l grp c, st2, setLast last c.name d, rng2)

/-- One iteration of the main `for ev in events` loop. -/
def engineStep (strat : StrategyFn) (leaders : List Leader) (lpe : Nat)
    (es : EngineState) (ev : Event) : EngineState :=
  let st := { es.strat_state with current_date := some ev.date }
  if !ev.leader_required then
    { es with strat_state := st,
              out := es.out ++ [⟨ev, [], ev.responsible_group⟩] }
  else if ev.kind == "combined" then
    let eligible := eligibleCombined leaders ev
    let filtered := eligible.filter (gapOkB es.last_assigned ev.date)
    let eligible2 := if filtered.isEmpty then eligible else filtered
    let needed := if ev.responsibility_mode == "leader" then 1 else min lpe eligible2.length
    let r := if 0 < needed then strat eligible2 needed st es.rng else ([], st, es.rng)
    { strat_state := r.2.1,
      last_assigned := r.1.foldl (fun f ld => setLast f ld.name ev.date) es.last_assigned,
      rng := r.2.2,
      out := es.out ++ [⟨ev, r.1, ev.responsible_group⟩] }
  else
    let r := ev.groups_involved.foldl (sepStep strat leaders ev.date)
      ([], st, es.last_assigned, es.rng)
    { strat_state := r.2.1, last_assigned := r.2.2.1, rng := r.2.2.2,
      out := es.out ++ [⟨ev, dictValuesUnique (r.1.map (·.2)) [], ev.responsible_group⟩] }

def initEngineState (rng : RngState) : EngineState := ⟨{}, fun _ => none, rng, []⟩

/-- `assign_leaders` generalised over the strategy slot. -/
def assignLeadersWith (strat : StrategyFn) (events : List Event)
    (leaders : List Leader) (lpe : Nat) (rng : RngState) : List Assignment :=
  ((prePassEvents events).foldl (engineStep strat leaders lpe) (initEngineState rng)).out

def rngZero : RngState := ⟨fun _ => 0, 0⟩

/-- `assign_leaders` as written: the strategy slot is hardcoded by
`from .strategies import fair as strategy`, so the registry and any
requested strategy name are never consulted; `fair` never reads the rng
tape, so the zero tape is immaterial. -/
def assign_leaders (events : List Event) (leaders : List Leader)
    (lpe : Nat := 2) : List Assignment :=
  assignLeadersWith fairS events leaders lpe rngZero

/-! ### Builders (`build_leaders`, `build_groups`, `expand_events`,
`build_schedule`) -/

structure RawLeader where
  name : String
  groups : Option (List String) := none
  availability : Option (List String) := none
  weight : Option Int := none
deriving DecidableEq, Repr

def build_leaders (raw : List RawLeader) : List Leader :=
  raw.map (fun e => ⟨e.name, e.groups.getD [], e.availability.getD [], e.weight.getD 1⟩)

structure RawGroup where
  name : String
  members : Option (List String) := none
deriving DecidableEq, Repr

def upsertGroup (m : List (String × PyGroup)) (g : PyGroup) :
    List (String × PyGroup) :=
  if m.any (fun p => p.1 == g.name) then
    m.map (fun p => if p.1 == g.name then (g.name, g) else p)
  else m ++ [(g.name, g)]

def build_groups (raw : List RawGroup) : List (String × PyGroup) :=
  raw.foldl (fun m e => upsertGroup m ⟨e.name, e.members.getD []⟩) []

/-- `expand_events`: generate every rule's dates over the year span, attach
responsibility data, and sort all events by date (`list.sort` is stable). -/
def expand_events (rules : List RecurringRule) (all_groups : List String)
    (start stop : PyDate) : List Event :=
  sSort (fun a b => dateLtB a.date b.date) <|
    rules.flatMap (fun rule =>
      let dates := ((List.range (stop.year + 1 - start.year)).map (start.year + ·)).flatMap
        (fun yr => rule.generate_dates yr (some start) (some stop))
      let involved := match rule.groups_involved with
        | some (g :: gs) => g :: gs
        | _ => all_groups
      let resp := rule.responsibility.getD {}
      let mode := resp.mode.getD "none"
      let rotation_pool := resp.rotation_pool.getD []
      dates.map (fun d =>
        { date := d, kind := rule.kind,
          description := match rule.description with
            | some s => if s == "" then rule.name else s
            | none => rule.name,
          groups_involved := involved,
          responsibility_mode := mode,
          leader_required := mode == "leader" || rule.kind == "separate",
          rotation_pool := if mode == "group" then some rotation_pool else none,
          start_time := rule.start_time,
          duration_minutes := rule.duration_minutes }))

/-- `build_schedule` generalised over the strategy slot and the rng tape
(used by the determinism results). -/
def buildScheduleWith (strat : StrategyFn) (rng : RngState)
    (leaders_raw : List RawLeader) (groups_raw : List RawGroup)
    (rules_objs : List RecurringRule) (start : PyDate)
    (stop : Option PyDate) : Schedule :=
  let leaders := build_leaders leaders_raw
  let groups := build_groups groups_raw
  let all_group_names := groups.map (·.1)
  let e := match stop with | some e => e | none => addDays start 365
  ⟨assignLeadersWith strat (expand_events rules_objs all_group_names start e) leaders 2 rng⟩

/-- `build_schedule` as written: its parameters are exactly
`(leaders_raw, groups_raw, rules_objs, start, end=None)` — it accepts no
strategy name and no gap configuration, and `assign_leaders` always uses
`fair`. -/
def build_schedule (leaders_raw : List RawLeader) (groups_raw : List RawGroup)
    (rules_objs : List RecurringRule) (start : PyDate)
    (stop : Option PyDate := none) : Schedule :=
  buildScheduleWith fairS rngZero leaders_raw groups_raw rules_objs start stop

/-! ## Spec-side variant for the gap-waiver comparison

The spec reads: "if filtering empties or under-supplies the eligible set,
gap filter is waived (revert to unfiltered eligible set)" before computing
the needed count.  The engine below follows those words for combined
events (everything else is as in `engineStep`), so it can be compared with
the code's behaviour. -/

def engineStepSpecWaive (strat : StrategyFn) (leaders : List Leader) (lpe : Nat)
    (es : EngineState) (ev : Event) : EngineState :=
  let st := { es.strat_state with current_date := some ev.date }
  if !ev.leader_required then
    { es with strat_state := st,
              out := es.out ++ [⟨ev, [], ev.responsible_group⟩] }
  else if ev.kind == "combined" then
    let eligible := eligibleCombined leaders ev
    let filtered := eligible.filter (gapOkB es.last_assigned ev.date)
    let needed0 := if ev.responsibility_mode == "leader" then 1 else lpe
    let eligible2 := if filtered.length < needed0 then eligible else filtered
    let needed := if ev.responsibility_mode == "leader" then 1 else min lpe eligible2.length
    let r := if 0 < needed then strat eligible2 needed st es.rng else ([], st, es.rng)
    { strat_state := r.2.1,
      last_assigned := r.1.foldl (fun f ld => setLast f ld.name ev.date) es.last_assigned,
      rng := r.2.2,
      out := es.out ++ [⟨ev, r.1, ev.responsible_group⟩] }
  else
    let r := ev.groups_involved.foldl (sepStep strat leaders ev.date)
      ([], st, es.last_assigned, es.rng)
    { strat_state := r.2.1, last_assigned := r.2.2.1, rng := r.2.2.2,
      out := es.out ++ [⟨ev, dictValuesUnique (r.1.map (·.2)) [], ev.responsible_group⟩] }

def assignLeadersSpecWaive (events : List Event) (leaders : List Leader)
    (lpe : Nat := 2) : List Assignment :=
  ((prePassEvents events).foldl (engineStepSpecWaive fairS leaders lpe)
    (initEngineState rngZero)).out

/-! ## Concrete inputs used by counterexamples and witnesses -/

def ldAlice : Leader := ⟨"Alice", ["g"], [], 1⟩
def ldBob : Leader := ⟨"Bob", ["g"], [], 1⟩
def ldCara : Leader := ⟨"Cara", ["g", "h"], [], 1⟩

def evLeaderMode (d : PyDate) (gs : List String) : Event :=
  { date := d, kind := "combined", description := "activity",
    groups_involved := gs, responsibility_mode := "leader",
    leader_required := true }

/-- A combined event whose leaders come from `min(leaders_per_event, …)`
rather than the single-leader branch. -/
def evTeamMode (d : PyDate) (gs : List String) : Event :=
  { date := d, kind := "combined", description := "activity",
    groups_involved := gs, responsibility_mode := "none",
    leader_required := true }

def evGroupMode (d : PyDate) (desc : String) (pool : List String) : Event :=
  { date := d, kind := "combined", description := desc,
    groups_involved := ["g"], responsibility_mode := "group",
    leader_required := false, rotation_pool := some pool }

def exC1Events : List Event :=
  [evLeaderMode ⟨2026, 3, 2⟩ ["g"],
   evLeaderMode ⟨2026, 3, 9⟩ ["h"],
   evLeaderMode ⟨2026, 3, 16⟩ ["g"]]

def exC1Leaders : List Leader := [ldAlice, ldBob, ldCara]

def exC3Events : List Event :=
  [evLeaderMode ⟨2026, 3, 2⟩ ["g"],
   evTeamMode ⟨2026, 3, 5⟩ ["g"]]

def exC3Leaders : List Leader := [ldAlice, ldBob]

def exC5Events : List Event :=
  [evGroupMode ⟨2026, 1, 5⟩ "a" ["g1", "g2"],
   evGroupMode ⟨2026, 1, 12⟩ "b" ["g2"],
   evGroupMode ⟨2026, 1, 19⟩ "c" ["g1", "g2"]]

/-! ## Auxiliary definitions used by the statements below -/

/-- N consecutive `round_robin` calls, each requesting one leader from a
fixed pool, threading the same state through all calls. -/
def rrCalls (pool : List Leader) (st : StratState) : Nat → List (List Leader)
  | 0 => []
  | n + 1 =>
    (round_robin pool 1 st).1 :: rrCalls pool (round_robin pool 1 st).2 n

/-- One month of the rotation pre-pass (the body of the fold in
`rotPrePass`), named so the per-month behaviour can be reasoned about. -/
def rotMonthFold (events : List Event) (s : RotState) (k : Nat × Nat) : RotState :=
  (sSort evDateDescLt (rotBucket events k)).foldl rotMonthStep { s with month_used := [] }

/-- Number of group-mode events with a non-empty rotation pool falling in
month `k`. -/
def monthGroupCount (events : List Event) (k : Nat × Nat) : Nat :=
  events.countP (fun e => monthKeyOf e == k && isGroupRotEvent e)

/-- Count of group-rotation events in an indexed event list. -/
def rotCount (L : List (Nat × Event)) : Nat :=
  L.countP (fun ie => isGroupRotEvent ie.2)

/-- The candidate pool computed inside `fair` (blackout filter, waived on
under-supply). -/
def fairCand (st : StratState) (pool : List Leader) (count : Nat) : List Leader :=
  let leader_infos := pool.map (fun ld => (ld, daysSinceOf st ld))
  let primary := (leader_infos.filter (fun p => 5 ≤ p.2)).map (·.1)
  if count ≤ primary.length then primary else leader_infos.map (·.1)

/-! ## Lemmas about the stable sort -/

theorem sInsert_perm (lt : α → α → Bool) (a : α) (l : List α) :
    (sInsert lt a l).Perm (a :: l) := by
  induction l with
  | nil => exact List.Perm.refl _
  | cons b t ih =>
    simp only [sInsert]
    split
    · exact (ih.cons b).trans (List.Perm.swap a b t)
    · exact List.Perm.refl _

theorem sSort_perm (lt : α → α → Bool) (l : List α) : (sSort lt l).Perm l := by
  induction l with
  | nil => exact List.Perm.refl _
  | cons a t ih => exact (sInsert_perm lt a (sSort lt t)).trans (ih.cons a)

theorem mem_sSort (lt : α → α → Bool) (l : List α) (x : α) :
    x ∈ sSort lt l ↔ x ∈ l :=
  (sSort_perm lt l).mem_iff

theorem sInsert_pairwise (lt : α → α → Bool)
    (hasymm : ∀ a b, lt a b = true → lt b a = false)
    (hneg : ∀ a b c, lt b a = false → lt c b = false → lt c a = false)
    (a : α) (l : List α)
    (hl : l.Pairwise (fun x y => lt y x = false)) :
    (sInsert lt a l).Pairwise (fun x y => lt y x = false) := by
  induction l with
  | nil => simp [sInsert]
  | cons b t ih =>
    rcases List.pairwise_cons.mp hl with ⟨hb, ht⟩
    simp only [sInsert]
    split
    · rename_i hba
      refine List.pairwise_cons.mpr ⟨?_, ih ht⟩
      intro y hy
      rcases List.mem_cons.mp ((sInsert_perm lt a t).mem_iff.mp hy) with hya | hyt
      · rw [hya]
        exact hasymm b a hba
      · exact hb y hyt
    · rename_i hba
      refine List.pairwise_cons.mpr ⟨?_, hl⟩
      intro y hy
      rcases List.mem_cons.mp hy with hyb | hyt
      · rw [hyb]
        exact Bool.of_not_eq_true hba
      · exact hneg a b y (Bool.of_not_eq_true hba) (hb y hyt)

theorem sSort_pairwise (lt : α → α → Bool)
    (hasymm : ∀ a b, lt a b = true → lt b a = false)
    (hneg : ∀ a b c, lt b a = false → lt c b = false → lt c a = false)
    (l : List α) :
    (sSort lt l).Pairwise (fun x y => lt y x = false) := by
  induction l with
  | nil => simp [sSort]
  | cons a t ih => exact sInsert_pairwise lt hasymm hneg a (sSort lt t) ih

/-- In a list sorted by a strict comparison, an element strictly below
another appears before it (as the two-element sublist `[y, x]`). -/
theorem pairwise_sublist_pair (lt : α → α → Bool)
    (hasymm : ∀ a b, lt a b = true → lt b a = false)
    (L : List α) (hp : L.Pairwise (fun x y => lt y x = false))
    (x y : α) (hx : x ∈ L) (hy : y ∈ L) (hlt : lt y x = true) :
    [y, x].Sublist L := by
  induction L with
  | nil => exact absurd hx (List.not_mem_nil x)
  | cons a rest ih =>
    rcases List.pairwise_cons.mp hp with ⟨ha, hrest⟩
    rcases List.mem_cons.mp hy with hya | hyr
    · subst hya
      rcases List.mem_cons.mp hx with hxa | hxr
      · rw [hxa] at hlt
        rw [hasymm y y hlt] at hlt
        exact absurd hlt (by simp)
      · exact List.cons_sublist_cons.mpr (List.singleton_sublist.mpr hxr)
    · rcases List.mem_cons.mp hx with hxa | hxr
      · subst hxa
        rw [ha y hyr] at hlt
        exact absurd hlt (by simp)
      · exact (ih hrest hxr hyr).cons a

theorem sSort_before (lt : α → α → Bool)
    (hasymm : ∀ a b, lt a b = true → lt b a = false)
    (hneg : ∀ a b c, lt b a = false → lt c b = false → lt c a = false)
    (l : List α) (x y : α) (hx : x ∈ sSort lt l) (hy : y ∈ sSort lt l)
    (hlt : lt y x = true) :
    [y, x].Sublist (sSort lt l) :=
  pairwise_sublist_pair lt hasymm (sSort lt l)
    (sSort_pairwise lt hasymm hneg l) x y hx hy hlt

/-- The head of a sorted list is minimal: no list element is strictly below it. -/
theorem sSort_head_min (lt : α → α → Bool)
    (hasymm : ∀ a b, lt a b = true → lt b a = false)
    (hneg : ∀ a b c, lt b a = false → lt c b = false → lt c a = false)
    (hirr : ∀ a, lt a a = false)
    (l : List α) (g : α) (rest : List α) (h : sSort lt l = g :: rest) :
    ∀ x ∈ l, lt x g = false := by
  intro x hx
  have hx2 : x ∈ g :: rest := h ▸ (mem_sSort lt l x).mpr hx
  rcases List.mem_cons.mp hx2 with hxg | hxr
  · rw [hxg]
    exact hirr g
  · have hp := sSort_pairwise lt hasymm hneg l
    rw [h] at hp
    exact (List.pairwise_cons.mp hp).1 x hxr

theorem sSort_length (lt : α → α → Bool) (l : List α) :
    (sSort lt l).length = l.length :=
  (sSort_perm lt l).length_eq

/-! ## Lemmas about the string order -/

theorem strLexLt_irrefl : ∀ a : List Char, strLexLt a a = false := by
  intro a
  induction a with
  | nil => rfl
  | cons x s ih => simp [strLexLt, ih]

theorem strLexLt_asymm : ∀ a b : List Char,
    strLexLt a b = true → strLexLt b a = false := by
  intro a
  induction a with
  | nil =>
    intro b h
    cases b with
    | nil => simp [strLexLt] at h
    | cons y t => simp [strLexLt]
  | cons x s ih =>
    intro b h
    cases b with
    | nil => simp [strLexLt] at h
    | cons y t =>
      simp only [strLexLt] at h ⊢
      by_cases h1 : x.toNat < y.toNat
      · have h2 : ¬ y.toNat < x.toNat := by omega
        simp [h2, h1]
      · simp only [h1, if_false] at h
        by_cases h2 : y.toNat < x.toNat
        · rw [if_pos h2] at h
          exact absurd h (by simp)
        · simp only [h2, if_false] at h
          simp only [h2, if_false, h1]
          exact ih t h

theorem strLexLt_total : ∀ a b : List Char,
    strLexLt a b = true ∨ strLexLt b a = true ∨ a = b := by
  intro a
  induction a with
  | nil =>
    intro b
    cases b with
    | nil => right; right; rfl
    | cons y t => left; rfl
  | cons x s ih =>
    intro b
    cases b with
    | nil => right; left; rfl
    | cons y t =>
      rcases Nat.lt_trichotomy x.toNat y.toNat with hlt | heq | hgt
      · left; simp [strLexLt, hlt]
      · have hxy : x = y := Char.eq_of_val_eq (UInt32.ext heq)
        subst hxy
        rcases ih t with h1 | h2 | h3
        · left; simp [strLexLt, Nat.lt_irrefl, h1]
        · right; left; simp [strLexLt, Nat.lt_irrefl, h2]
        · right; right; rw [h3]
      · right; left; simp [strLexLt, hgt]

theorem strLexLt_trans : ∀ a b c : List Char,
    strLexLt a b = true → strLexLt b c = true → strLexLt a c = true := by
  intro a
  induction a with
  | nil =>
    intro b c hab hbc
    cases b with
    | nil => simp [strLexLt] at hab
    | cons y t =>
      cases c with
      | nil => simp [strLexLt] at hbc
      | cons z u => rfl
  | cons x s ih =>
    intro b c hab hbc
    cases b with
    | nil => simp [strLexLt] at hab
    | cons y t =>
      cases c with
      | nil => simp [strLexLt] at hbc
      | cons z u =>
        simp only [strLexLt] at hab hbc ⊢
        by_cases h1 : x.toNat < y.toNat
        · by_cases h2 : y.toNat < z.toNat
          · simp [show x.toNat < z.toNat by omega]
          · simp only [h2, if_false] at hbc
            by_cases h3 : z.toNat < y.toNat
            · simp [h3] at hbc
            · simp [show x.toNat < z.toNat by omega]
        · simp only [h1, if_false] at hab
          by_cases h1b : y.toNat < x.toNat
          · simp [h1b] at hab
          · simp only [h1b, if_false] at hab
            by_cases h2 : y.toNat < z.toNat
            · simp [show x.toNat < z.toNat by omega]
            · simp only [h2, if_false] at hbc
              by_cases h3 : z.toNat < y.toNat
              · simp [h3] at hbc
              · simp only [h3, if_false] at hbc
                have hxz : ¬ x.toNat < z.toNat := by omega
                have hzx : ¬ z.toNat < x.toNat := by omega
                simp only [hxz, hzx, if_false]
                exact ih t u hab hbc

theorem strLtB_irrefl (s : String) : strLtB s s = false :=
  strLexLt_irrefl s.data

theorem strLtB_asymm (s t : String) : strLtB s t = true → strLtB t s = false :=
  strLexLt_asymm s.data t.data

theorem strLtB_total (s t : String) :
    strLtB s t = true ∨ strLtB t s = true ∨ s = t := by
  rcases strLexLt_total s.data t.data with h | h | h
  · exact Or.inl h
  · exact Or.inr (Or.inl h)
  · refine Or.inr (Or.inr ?_)
    cases s
    cases t
    exact congrArg String.mk h

theorem strLtB_trans (a b c : String) :
    strLtB a b = true → strLtB b c = true → strLtB a c = true :=
  strLexLt_trans a.data b.data c.data

/-! ## Association-list lookup helpers -/

theorem lookup_mem {β : Type} (l : List (Nat × β)) (a : Nat) (b : β)
    (h : l.lookup a = some b) : (a, b) ∈ l := by
  induction l with
  | nil => simp [List.lookup] at h
  | cons p t ih =>
    rw [List.lookup] at h
    by_cases hk : a == p.1
    · rw [hk] at h
      simp only [Option.some.injEq] at h
      have ha : a = p.1 := by simpa using hk
      have hab : (a, b) = p := by
        cases p
        simp_all
      rw [hab]
      exact List.mem_cons_self _ _
    · rw [Bool.not_eq_true] at hk
      rw [hk] at h
      exact List.mem_cons_of_mem _ (ih h)

theorem lookup_exists {β : Type} (l : List (Nat × β)) (a : Nat) (b : β)
    (h : (a, b) ∈ l) : ∃ c, l.lookup a = some c := by
  induction l with
  | nil => simp at h
  | cons p t ih =>
    rw [List.lookup]
    by_cases hk : a == p.1
    · rw [hk]
      exact ⟨p.2, rfl⟩
    · rw [Bool.not_eq_true] at hk
      rw [hk]
      rcases List.mem_cons.mp h with h1 | h2
      · rw [← h1] at hk
        simp at hk
      · exact ih h2

/-! ## C8: `Schedule.filter_dates` -/

/-- C8: `Schedule.filter_dates(start, end)` returns a new `Schedule`
containing exactly the assignments whose event date `d` satisfies
`start ≤ d ≤ end`, in the original relative order (the result is a
sublist of the original assignment list).  The embedding is pure, which
reflects that the method builds a fresh list and never mutates the
original (`Schedule([a for a in self.assignments if ...])`). -/
theorem filter_dates_spec (sch : Schedule) (s e : PyDate) :
    (sch.filter_dates s e).assignments.Sublist sch.assignments ∧
    (∀ a : Assignment, a ∈ (sch.filter_dates s e).assignments ↔
      a ∈ sch.assignments ∧ dateLeB s a.event.date = true ∧
        dateLeB a.event.date e = true) := by
  constructor
  · exact List.filter_sublist _
  · intro a
    simp [Schedule.filter_dates, List.mem_filter, Bool.and_eq_true]

/-! ## C7: `round_robin` cycles with period K -/

theorem rrPick_one (pool : List Leader) (idx : Nat) (h : 0 < pool.length) :
    rrPick pool idx 1 = [pool.get ⟨idx % pool.length, Nat.mod_lt _ h⟩] := by
  simp [rrPick, h]

theorem round_robin_one (pool : List Leader) (st : StratState) (h : 0 < pool.length) :
    round_robin pool 1 st =
      ([pool.get ⟨st.rr_idx % pool.length, Nat.mod_lt _ h⟩],
       { st with rr_idx := st.rr_idx + 1 }) := by
  have hne : pool.isEmpty = false := by
    cases pool
    · simp at h
    · rfl
  simp [round_robin, rrPick_one pool _ h, hne]

theorem rrCalls_get (pool : List Leader) (h : 0 < pool.length) :
    ∀ (n : Nat) (st : StratState) (i : Nat), i < n →
    (rrCalls pool st n).get? i =
      some [pool.get ⟨(st.rr_idx + i) % pool.length, Nat.mod_lt _ h⟩] := by
  intro n
  induction n with
  | zero =>
    intro st i hi
    omega
  | succ m ih =>
    intro st i hi
    cases i with
    | zero =>
      rw [rrCalls]
      rw [round_robin_one pool st h]
      rfl
    | succ j =>
      rw [rrCalls]
      rw [List.get?_cons_succ]
      rw [round_robin_one pool st h]
      rw [ih _ j (by omega)]
      have harg : st.rr_idx + 1 + j = st.rr_idx + (j + 1) := by omega
      exact congrArg (fun t => some [t]) (congrArg pool.get (Fin.ext (by
        show (st.rr_idx + 1 + j) % pool.length = (st.rr_idx + (j + 1)) % pool.length
        rw [harg])))

/-- C7: starting from a fresh state, `N` consecutive `round_robin` calls
requesting one leader each from a fixed pool of size `K` yield the
sequence `pool[0], pool[1], …` cycling in order with period `K`. -/
theorem round_robin_cycles (pool : List Leader) (N i : Nat)
    (h : 0 < pool.length) (hi : i + pool.length < N) :
    (rrCalls pool {} N).get? (i + pool.length) = (rrCalls pool {} N).get? i ∧
    (rrCalls pool {} N).get? i =
      some [pool.get ⟨i % pool.length, Nat.mod_lt _ h⟩] := by
  have h1 := rrCalls_get pool h N {} i (by omega)
  have h2 := rrCalls_get pool h N {} (i + pool.length) hi
  constructor
  · rw [h2, h1]
    exact congrArg (fun t => some [t]) (congrArg pool.get (Fin.ext (by
      show (({} : StratState).rr_idx + (i + pool.length)) % pool.length
          = (({} : StratState).rr_idx + i) % pool.length
      rw [show ({} : StratState).rr_idx = 0 from rfl]
      rw [Nat.zero_add, Nat.zero_add, Nat.add_mod_right])))
  · rw [h1]
    exact congrArg (fun t => some [t]) (congrArg pool.get (Fin.ext (by
      show (({} : StratState).rr_idx + i) % pool.length = i % pool.length
      rw [show ({} : StratState).rr_idx = 0 from rfl]
      rw [Nat.zero_add])))

/-- Witness for C7 at the concrete pool `[Alice, Bob]`, `N = 5`, `i = 1`. -/
theorem round_robin_cycles_witness :
    (rrCalls [ldAlice, ldBob] {} 5).get? 3 = (rrCalls [ldAlice, ldBob] {} 5).get? 1 ∧
    (rrCalls [ldAlice, ldBob] {} 5).get? 1 = some [ldBob] := by
  have h := round_robin_cycles [ldAlice, ldBob] 5 1 (by decide) (by decide)
  refine ⟨h.1, ?_⟩
  rw [h.2]
  rfl

/-! ## Lemmas about `fair`'s selection loop -/

theorem fairSelect_sublist : ∀ (l : List Leader) (c : Nat) (u : List String),
    (fairSelect c u l).Sublist l := by
  intro l
  induction l with
  | nil => intro c u; simp [fairSelect]
  | cons ld t ih =>
    intro c u
    rw [fairSelect]
    split
    · exact (ih c u).cons ld
    · refine List.cons_sublist_cons.mpr ?_
      split
      · exact List.nil_sublist t
      · exact ih (c - 1) (ld.name :: u)

theorem fairSelect_length : ∀ (l : List Leader) (c : Nat) (u : List String),
    1 ≤ c → (fairSelect c u l).length ≤ c := by
  intro l
  induction l with
  | nil => intro c u _; simp [fairSelect]
  | cons ld t ih =>
    intro c u hc
    rw [fairSelect]
    split
    · exact ih c u hc
    · simp only [List.length_cons]
      split
      · simp only [List.length_nil]
        omega
      · rename_i hcgt
        have := ih (c - 1) (ld.name :: u) (by omega)
        omega

theorem fairSelect_names : ∀ (l : List Leader) (c : Nat) (u : List String),
    ((fairSelect c u l).map Leader.name).Nodup ∧
    ∀ nm ∈ (fairSelect c u l).map Leader.name, nm ∉ u := by
  intro l
  induction l with
  | nil => intro c u; simp [fairSelect]
  | cons ld t ih =>
    intro c u
    rw [fairSelect]
    split
    · exact ih c u
    · rename_i hnotu
      split
      · constructor
        · simp
        · intro nm hnm
          simp only [List.map_cons, List.map_nil, List.mem_singleton] at hnm
          rw [hnm]
          simpa using hnotu
      · rcases ih (c - 1) (ld.name :: u) with ⟨hnd, hnin⟩
        constructor
        · simp only [List.map_cons]
          refine List.nodup_cons.mpr ⟨?_, hnd⟩
          intro hmem
          exact (hnin ld.name hmem) (List.mem_cons_self _ _)
        · intro nm hnm
          simp only [List.map_cons, List.mem_cons] at hnm
          rcases hnm with h1 | h2
          · rw [h1]
            simpa using hnotu
          · intro hu
            exact (hnin nm h2) (List.mem_cons_of_mem _ hu)

/-! ## Lemmas about `rrPick` -/

theorem rrPick_map (pool : List Leader) (h : 0 < pool.length) :
    ∀ (count idx : Nat),
    rrPick pool idx count = (List.range count).map
      (fun j => pool.get ⟨(idx + j) % pool.length, Nat.mod_lt _ h⟩) := by
  intro count
  induction count with
  | zero => intro idx; simp [rrPick]
  | succ n ih =>
    intro idx
    rw [rrPick, dif_pos h, ih (idx + 1)]
    rw [List.range_succ_eq_map]
    simp only [List.map_cons, List.map_map, Function.comp]
    congr 1
    refine List.map_congr_left ?_
    intro j _
    exact congrArg pool.get (Fin.ext (by
      show (idx + 1 + j) % pool.length = (idx + (j + 1)) % pool.length
      rw [show idx + 1 + j = idx + (j + 1) by omega]))

theorem rrPick_length (pool : List Leader) (h : 0 < pool.length)
    (count idx : Nat) : (rrPick pool idx count).length = count := by
  rw [rrPick_map pool h count idx]
  simp

theorem rrPick_nodup (pool : List Leader) (h : 0 < pool.length)
    (hnd : pool.Nodup) (count idx : Nat) (hc : count ≤ pool.length) :
    (rrPick pool idx count).Nodup := by
  rw [rrPick_map pool h count idx]
  refine List.Nodup.map_on ?_ (List.nodup_range count)
  intro j1 h1 j2 h2 heq
  rw [List.mem_range] at h1 h2
  have hfin : (⟨(idx + j1) % pool.length, Nat.mod_lt _ h⟩ : Fin pool.length)
      = ⟨(idx + j2) % pool.length, Nat.mod_lt _ h⟩ :=
    (List.Nodup.get_inj_iff hnd).mp heq
  have hval : (idx + j1) % pool.length = (idx + j2) % pool.length :=
    congrArg Fin.val hfin
  have hmeq : Nat.ModEq pool.length (idx + j1) (idx + j2) := hval
  have hj : Nat.ModEq pool.length j1 j2 := Nat.ModEq.add_left_cancel rfl hmeq
  have e1 : j1 % pool.length = j1 := Nat.mod_eq_of_lt (by omega)
  have e2 : j2 % pool.length = j2 := Nat.mod_eq_of_lt (by omega)
  unfold Nat.ModEq at hj
  omega

/-! ## Lemmas about `fair` -/

theorem fair_eq (pool : List Leader) (count : Nat) (st : StratState)
    (h : (pool.isEmpty || count == 0) = false) :
    fair pool count st =
      (fairSelect count [] (sSort (fairKeyLt st) (fairCand st pool count)),
       fairUpdate st (fairSelect count [] (sSort (fairKeyLt st) (fairCand st pool count)))) := by
  simp only [fair, fairCand, h, if_false, Bool.false_eq_true]

theorem fair_guard (pool : List Leader) (count : Nat) (st : StratState)
    (h : (pool.isEmpty || count == 0) = true) :
    fair pool count st = ([], st) := by
  simp only [fair, h, if_true]

theorem fairCand_infos_fst (st : StratState) (pool : List Leader) :
    (pool.map (fun ld => (ld, daysSinceOf st ld))).map (·.1) = pool := by
  rw [List.map_map]
  exact List.map_id'' (fun _ => rfl) _

theorem fairCand_primary_eq (st : StratState) (pool : List Leader) :
    ((pool.map (fun ld => (ld, daysSinceOf st ld))).filter
        (fun p => decide (5 ≤ p.2))).map (·.1) =
      pool.filter (fun ld => decide (5 ≤ daysSinceOf st ld)) := by
  rw [List.filter_map]
  rw [List.map_map]
  exact List.map_id'' (fun _ => rfl) _

theorem fairCand_mem (st : StratState) (pool : List Leader) (count : Nat) :
    ∀ x ∈ fairCand st pool count, x ∈ pool := by
  intro x hx
  simp only [fairCand] at hx
  split at hx
  · rw [fairCand_primary_eq] at hx
    exact List.mem_of_mem_filter hx
  · rw [fairCand_infos_fst] at hx
    exact hx

theorem fairCand_length (st : StratState) (pool : List Leader) (count : Nat) :
    (fairCand st pool count).length ≤ pool.length := by
  simp only [fairCand]
  split
  · rw [fairCand_primary_eq]
    exact (List.filter_sublist pool).length_le
  · rw [fairCand_infos_fst]

theorem fair_mem_pool (pool : List Leader) (count : Nat) (st : StratState) :
    ∀ x ∈ (fair pool count st).1, x ∈ pool := by
  intro x hx
  cases hg : (pool.isEmpty || count == 0) with
  | true =>
    rw [fair_guard pool count st hg] at hx
    exact absurd hx (List.not_mem_nil x)
  | false =>
    rw [fair_eq pool count st hg] at hx
    have h1 : x ∈ sSort (fairKeyLt st) (fairCand st pool count) :=
      (fairSelect_sublist _ _ _).mem hx
    exact fairCand_mem st pool count x ((mem_sSort _ _ x).mp h1)

theorem fair_bounds (pool : List Leader) (count : Nat) (st : StratState) :
    (fair pool count st).1.length ≤ count ∧
    (fair pool count st).1.length ≤ pool.length ∧
    (fair pool count st).1.Nodup := by
  cases hg : (pool.isEmpty || count == 0) with
  | true =>
    rw [fair_guard pool count st hg]
    simp
  | false =>
    rw [fair_eq pool count st hg]
    have hc : 1 ≤ count := by
      rcases Bool.or_eq_false_iff.mp hg with ⟨_, h2⟩
      simp at h2
      omega
    refine ⟨fairSelect_length _ _ _ hc, ?_, ?_⟩
    · calc (fairSelect count [] (sSort (fairKeyLt st) (fairCand st pool count))).length
          ≤ (sSort (fairKeyLt st) (fairCand st pool count)).length :=
            (fairSelect_sublist _ _ _).length_le
      _ = (fairCand st pool count).length := sSort_length _ _
      _ ≤ pool.length := fairCand_length st pool count
    · exact List.Nodup.of_map _ (fairSelect_names _ _ _).1

/-! ## C2: the strategy return contract -/

theorem round_robin_bounds (pool : List Leader) (count : Nat) (st : StratState)
    (hnd : pool.Nodup) (hc : count ≤ pool.length) :
    (round_robin pool count st).1.length ≤ count ∧
    (round_robin pool count st).1.length ≤ pool.length ∧
    (round_robin pool count st).1.Nodup := by
  cases pool with
  | nil =>
    have hz : ∀ (c i : Nat), rrPick [] i c = [] := by
      intro c i
      cases c
      · rfl
      · rw [rrPick]
        rw [dif_neg (by simp)]
    simp [round_robin, hz]
  | cons p t =>
    have h : 0 < (p :: t).length := by simp
    simp only [round_robin]
    rw [rrPick_length _ h]
    exact ⟨Nat.le_refl count, hc, rrPick_nodup _ h hnd count st.rr_idx hc⟩

theorem round_robin_pads (pool : List Leader) (count : Nat) (st : StratState)
    (h : 0 < pool.length) :
    (round_robin pool count st).1.length = count := by
  simp only [round_robin]
  exact rrPick_length pool h count st.rr_idx

theorem expandWeighted_ne_nil (pool : List Leader) (h : pool ≠ []) :
    expandWeighted pool ≠ [] := by
  cases pool with
  | nil => exact absurd rfl h
  | cons ld t =>
    have h1 : (1 : Int) ≤ max 1 ld.weight := le_max_left 1 ld.weight
    have h2 : 1 ≤ (max 1 ld.weight).toNat := by omega
    simp only [expandWeighted, List.flatMap_cons]
    cases hk : (max 1 ld.weight).toNat with
    | zero => omega
    | succ k => simp [List.replicate]

/-- C2 (amended): over a duplicate-free candidate pool, `fair` always
returns at most `count` leaders, at most pool-size leaders, and no
duplicates; `round_robin` satisfies the same bounds whenever
`count ≤ pool size`, and when `count` exceeds the size of a non-empty pool
it returns exactly `count` leaders by cycling (so it pads with
duplicates rather than silently returning fewer); `random` (sampling
without replacement) satisfies the bounds; and `weighted` raises
`TypeError` on every non-empty pool because `Leader` values are
unhashable, so it never returns a leader list at all. -/
theorem strategy_return_contract (pool : List Leader) (count : Nat) (st : StratState) :
    ((fair pool count st).1.length ≤ count ∧
      (fair pool count st).1.length ≤ pool.length ∧
      (fair pool count st).1.Nodup) ∧
    (pool.Nodup → count ≤ pool.length →
      ((round_robin pool count st).1.length ≤ count ∧
        (round_robin pool count st).1.length ≤ pool.length ∧
        (round_robin pool count st).1.Nodup)) ∧
    (0 < pool.length → (round_robin pool count st).1.length = count) ∧
    (∀ r, RandomPickSpec pool count r →
      r.length ≤ count ∧ r.length ≤ pool.length ∧ (pool.Nodup → r.Nodup)) ∧
    (pool ≠ [] → ∀ r, WeightedSpec pool count r →
      r = Except.error "TypeError: unhashable type: Leader") := by
  refine ⟨fair_bounds pool count st,
          fun hnd hc => round_robin_bounds pool count st hnd hc,
          fun h => round_robin_pads pool count st h,
          ?_, ?_⟩
  · intro r hr
    rcases hr with ⟨hlen, hsub⟩
    refine ⟨by omega, ?_, ?_⟩
    · rw [hlen]
      omega
    · intro hnd
      rcases hsub with ⟨l2, hperm, hsubl⟩
      exact hperm.symm.nodup_iff.mpr (hsubl.nodup hnd)
  · intro hne r hr
    rcases hr with ⟨shuffled, hperm, hr⟩
    have hsh : shuffled ≠ [] := by
      intro hnil
      have := hperm.length_eq
      rw [hnil] at this
      simp at this
      exact expandWeighted_ne_nil pool hne (List.length_eq_zero.mp this.symm)
    cases shuffled with
    | nil => exact absurd rfl hsh
    | cons a b => exact hr

/-- C2 counterexample: `round_robin` on the two-leader pool with
`count = 3` returns `[Alice, Bob, Alice]` — more leaders than the pool
holds, with a duplicate — instead of silently returning fewer; and
`weighted`'s dedup loop raises `TypeError` on a singleton pool instead of
returning leaders. -/
theorem strategy_return_contract_cex :
    (round_robin [ldAlice, ldBob] 3 {}).1 = [ldAlice, ldBob, ldAlice] ∧
    ¬ (round_robin [ldAlice, ldBob] 3 {}).1.Nodup ∧
    [ldAlice, ldBob].length < (round_robin [ldAlice, ldBob] 3 {}).1.length ∧
    weightedDedupLoop [ldAlice] 1 = Except.error "TypeError: unhashable type: Leader" := by
  refine ⟨by decide, by decide, by decide, rfl⟩

/-- Witness for C2 at the concrete pool `[Alice, Bob]`, `count = 2`. -/
theorem strategy_return_contract_witness :
    ((fair [ldAlice, ldBob] 2 {}).1.length ≤ 2 ∧
      (fair [ldAlice, ldBob] 2 {}).1.length ≤ 2 ∧
      (fair [ldAlice, ldBob] 2 {}).1.Nodup) ∧
    ((round_robin [ldAlice, ldBob] 2 {}).1.length ≤ 2 ∧
      (round_robin [ldAlice, ldBob] 2 {}).1.length ≤ 2 ∧
      (round_robin [ldAlice, ldBob] 2 {}).1.Nodup) ∧
    (round_robin [ldAlice, ldBob] 2 {}).1.length = 2 ∧
    ([ldAlice, ldBob].length ≤ 2 ∧ [ldAlice, ldBob].length ≤ 2 ∧ [ldAlice, ldBob].Nodup) ∧
    weightedDedupLoop (expandWeighted [ldAlice, ldBob]) 2 =
      Except.error "TypeError: unhashable type: Leader" := by
  have h := strategy_return_contract [ldAlice, ldBob] 2 {}
  refine ⟨h.1, h.2.1 (by decide) (by decide), h.2.2.1 (by decide), ?_, ?_⟩
  · have h4 := h.2.2.2.1 [ldAlice, ldBob] ⟨by decide, List.Subperm.refl _⟩
    exact ⟨h4.1, h4.2.1, h4.2.2 (by decide)⟩
  · exact h.2.2.2.2 (by decide) _ ⟨expandWeighted [ldAlice, ldBob], List.Perm.refl _, rfl⟩

/-! ## C6: `fair` prefers longer idle time among equal counts -/

theorem daysSinceOf_name (st : StratState) (a b : Leader)
    (h : a.name = b.name) : daysSinceOf st a = daysSinceOf st b := by
  simp [daysSinceOf, h]

theorem fairKeyLt_true_iff (st : StratState) (a b : Leader) :
    fairKeyLt st a b = true ↔
      (st.fair_counts a.name < st.fair_counts b.name ∨
        (st.fair_counts a.name = st.fair_counts b.name ∧
          (-(daysSinceOf st a) < -(daysSinceOf st b) ∨
            (-(daysSinceOf st a) = -(daysSinceOf st b) ∧
              strLtB a.name b.name = true)))) := by
  simp [fairKeyLt, Bool.or_eq_true, Bool.and_eq_true, decide_eq_true_iff]

theorem fairKeyLt_congr (st : StratState) (a b x : Leader)
    (h : a.name = b.name) :
    fairKeyLt st a x = fairKeyLt st b x ∧ fairKeyLt st x a = fairKeyLt st x b := by
  constructor
  · simp [fairKeyLt, h, daysSinceOf_name st a b h]
  · simp [fairKeyLt, h, daysSinceOf_name st a b h]

theorem fairKeyLt_irrefl (st : StratState) (a : Leader) :
    fairKeyLt st a a = false := by
  simp [fairKeyLt, strLtB_irrefl]

theorem fairKeyLt_trans (st : StratState) (a b c : Leader)
    (h1 : fairKeyLt st a b = true) (h2 : fairKeyLt st b c = true) :
    fairKeyLt st a c = true := by
  rw [fairKeyLt_true_iff] at h1 h2 ⊢
  rcases h1 with h1 | ⟨he1, h1⟩
  · rcases h2 with h2 | ⟨he2, _⟩
    · omega
    · omega
  · rcases h2 with h2 | ⟨he2, h2⟩
    · omega
    · refine Or.inr ⟨by omega, ?_⟩
      rcases h1 with h1 | ⟨hd1, h1⟩
      · rcases h2 with h2 | ⟨hd2, _⟩
        · omega
        · omega
      · rcases h2 with h2 | ⟨hd2, h2⟩
        · omega
        · exact Or.inr ⟨by omega, strLtB_trans _ _ _ h1 h2⟩

theorem fairKeyLt_asymm (st : StratState) (a b : Leader)
    (h : fairKeyLt st a b = true) : fairKeyLt st b a = false := by
  rw [fairKeyLt_true_iff] at h
  rw [Bool.eq_false_iff, Ne, fairKeyLt_true_iff]
  intro h2
  rcases h with h | ⟨he, h⟩
  · rcases h2 with h2 | ⟨he2, _⟩
    · omega
    · omega
  · rcases h2 with h2 | ⟨he2, h2⟩
    · omega
    · rcases h with h | ⟨hd, h⟩
      · rcases h2 with h2 | ⟨hd2, _⟩
        · omega
        · omega
      · rcases h2 with h2 | ⟨hd2, h2⟩
        · omega
        · rw [strLtB_asymm _ _ h] at h2
          exact absurd h2 (by simp)

theorem fairKeyLt_false_char (st : StratState) (a b : Leader) :
    fairKeyLt st a b = false ↔
      (fairKeyLt st b a = true ∨ a.name = b.name) := by
  constructor
  · intro h
    by_cases hn : a.name = b.name
    · exact Or.inr hn
    · refine Or.inl ?_
      rw [Bool.eq_false_iff, Ne, fairKeyLt_true_iff] at h
      rw [fairKeyLt_true_iff]
      rcases Nat.lt_trichotomy (st.fair_counts a.name) (st.fair_counts b.name) with hc | hc | hc
      · exact absurd (Or.inl hc) h
      · rcases Int.lt_trichotomy (-(daysSinceOf st a)) (-(daysSinceOf st b)) with hd | hd | hd
        · exact absurd (Or.inr ⟨hc, Or.inl hd⟩) h
        · rcases strLtB_total a.name b.name with hs | hs | hs
          · exact absurd (Or.inr ⟨hc, Or.inr ⟨hd, hs⟩⟩) h
          · exact Or.inr ⟨hc.symm, Or.inr ⟨by omega, hs⟩⟩
          · exact absurd hs hn
        · exact Or.inr ⟨hc.symm, Or.inl (by omega)⟩
      · exact Or.inl hc
  · intro h
    rcases h with h | h
    · exact fairKeyLt_asymm st b a h
    · rw [(fairKeyLt_congr st a b b h).1]
      exact fairKeyLt_irrefl st b

theorem fairKeyLt_negtrans (st : StratState) (a b c : Leader)
    (h1 : fairKeyLt st b a = false) (h2 : fairKeyLt st c b = false) :
    fairKeyLt st c a = false := by
  rw [fairKeyLt_false_char] at h1 h2 ⊢
  rcases h1 with h1 | h1
  · rcases h2 with h2 | h2
    · exact Or.inl (fairKeyLt_trans st a b c h1 h2)
    · refine Or.inl ?_
      rw [(fairKeyLt_congr st c b a h2).2]
      exact h1
  · rcases h2 with h2 | h2
    · refine Or.inl ?_
      rw [← (fairKeyLt_congr st b a c h1).1]
      exact h2
    · exact Or.inr (h2.trans h1)

theorem fairSelect_respects_order :
    ∀ (l : List Leader) (c : Nat) (u : List String) (X Y : Leader),
    (l.map Leader.name).Nodup → [Y, X].Sublist l → Y.name ∉ u →
    X ∈ fairSelect c u l → [Y, X].Sublist (fairSelect c u l) := by
  intro l
  induction l with
  | nil =>
    intro c u X Y _ hsub _ hX
    simp [fairSelect] at hX
  | cons a t ih =>
    intro c u X Y hnd hsub hYu hX
    have hndt : (t.map Leader.name).Nodup := (List.nodup_cons.mp (by simpa using hnd)).2
    have hanotin : a.name ∉ t.map Leader.name := (List.nodup_cons.mp (by simpa using hnd)).1
    rw [fairSelect] at hX ⊢
    by_cases ha : a.name ∈ u
    · rw [if_pos (by simpa using ha)] at hX ⊢
      cases hsub with
      | cons _ h =>
        exact ih c u X Y hndt h hYu hX
      | cons₂ _ h =>
        exact absurd ha hYu
    · rw [if_neg (by simpa using ha)] at hX ⊢
      cases hsub with
      | cons₂ _ h =>
        -- Y = a; X occurs in t
        have hXt : X ∈ t := List.singleton_sublist.mp h
        have hXa : X ≠ a := by
          intro heq
          exact hanotin (heq ▸ List.mem_map_of_mem Leader.name hXt)
        rcases List.mem_cons.mp hX with h1 | h2
        · exact absurd h1 hXa
        · exact List.cons_sublist_cons.mpr (List.singleton_sublist.mpr h2)
      | cons _ h =>
        -- Y, X both occur in t
        have hXt : X ∈ t := by
          have : X ∈ [Y, X] := by simp
          exact h.mem this
        have hYt : Y ∈ t := by
          have : Y ∈ [Y, X] := by simp
          exact h.mem this
        have hXa : X ≠ a := by
          intro heq
          exact hanotin (heq ▸ List.mem_map_of_mem Leader.name hXt)
        have hYa : Y.name ≠ a.name := by
          intro heq
          exact hanotin (heq ▸ List.mem_map_of_mem Leader.name hYt)
        rcases List.mem_cons.mp hX with h1 | h2
        · exact absurd h1 hXa
        · have hc1 : ¬ c ≤ 1 := by
            intro hcle
            rw [if_pos hcle] at h2
            exact absurd h2 (List.not_mem_nil X)
          rw [if_neg hc1] at h2 ⊢
          refine List.Sublist.cons a ?_
          refine ih (c - 1) (a.name :: u) X Y hndt h ?_ h2
          intro hmem
          rcases List.mem_cons.mp hmem with hh | hh
          · exact hYa hh
          · exact hYu hh

/-- C6: in any `fair` call, among two pool members with equal prior
assignment counts, the leader with strictly smaller days-since-last
assignment is never selected ahead of the one with larger days-since: if
the less-idle leader `X` is chosen at all, then the more-idle leader `Y`
is also chosen and appears strictly earlier in the returned list (the
pool carries distinct leader names, as leaders are identified by name
throughout the state). -/
theorem fair_prefers_idle (pool : List Leader) (count : Nat) (st : StratState)
    (X Y : Leader)
    (hnames : (pool.map Leader.name).Nodup)
    (hY : Y ∈ pool)
    (hcnt : st.fair_counts X.name = st.fair_counts Y.name)
    (hds : daysSinceOf st X < daysSinceOf st Y)
    (hXin : X ∈ (fair pool count st).1) :
    [Y, X].Sublist (fair pool count st).1 := by
  cases hg : (pool.isEmpty || count == 0) with
  | true =>
    rw [fair_guard _ _ _ hg] at hXin
    exact absurd hXin (List.not_mem_nil X)
  | false =>
    rw [fair_eq _ _ _ hg] at hXin ⊢
    have hlt : fairKeyLt st Y X = true := by
      rw [fairKeyLt_true_iff]
      exact Or.inr ⟨hcnt.symm, Or.inl (by omega)⟩
    have hXord : X ∈ sSort (fairKeyLt st) (fairCand st pool count) :=
      (fairSelect_sublist _ _ _).mem hXin
    have hXcand : X ∈ fairCand st pool count := (mem_sSort _ _ _).mp hXord
    have hYcand : Y ∈ fairCand st pool count := by
      simp only [fairCand] at hXcand ⊢
      split
      · rename_i hcle
        rw [fairCand_primary_eq]
        rw [if_pos hcle, fairCand_primary_eq] at hXcand
        have h5 : (5 : Int) ≤ daysSinceOf st X := by
          have := List.of_mem_filter hXcand
          simpa using this
        refine List.mem_filter.mpr ⟨hY, ?_⟩
        simp only [decide_eq_true_iff]
        omega
      · rw [fairCand_infos_fst]
        exact hY
    have hYord : Y ∈ sSort (fairKeyLt st) (fairCand st pool count) :=
      (mem_sSort _ _ _).mpr hYcand
    have hpair : [Y, X].Sublist (sSort (fairKeyLt st) (fairCand st pool count)) :=
      sSort_before _ (fairKeyLt_asymm st) (fairKeyLt_negtrans st) _ X Y hXord hYord hlt
    have hcnd : ((fairCand st pool count).map Leader.name).Nodup := by
      simp only [fairCand]
      split
      · rw [fairCand_primary_eq]
        exact List.Nodup.sublist ((List.filter_sublist pool).map Leader.name) hnames
      · rw [fairCand_infos_fst]
        exact hnames
    have hnd : ((sSort (fairKeyLt st) (fairCand st pool count)).map Leader.name).Nodup :=
      ((sSort_perm _ _).map Leader.name).nodup_iff.mpr hcnd
    exact fairSelect_respects_order _ count [] X Y hnd hpair (by simp) hXin

/-- Witness for C6: with equal counts, Alice idle 5 days and Bob never
assigned, Alice is chosen only behind Bob. -/
theorem fair_prefers_idle_witness :
    ldAlice ∈ (fair [ldAlice, ldBob] 2
      { fair_last := fun n => if n = "Alice" then some ⟨2026, 2, 25⟩ else none,
        current_date := some ⟨2026, 3, 2⟩ }).1 ∧
    [ldBob, ldAlice].Sublist (fair [ldAlice, ldBob] 2
      { fair_last := fun n => if n = "Alice" then some ⟨2026, 2, 25⟩ else none,
        current_date := some ⟨2026, 3, 2⟩ }).1 := by
  refine ⟨by decide, ?_⟩
  exact fair_prefers_idle [ldAlice, ldBob] 2 _ ldAlice ldBob
    (by decide) (by decide) (by decide) (by decide) (by decide)

/-! ## C4: monthly nth-weekday selection in `generate_dates` -/

/-- C4: for a monthly rule and any month, with `occ` the ascending list of
that month's dates on the rule's weekday: when `nth > 0` the month yields
the `nth` occurrence (1-indexed) if it exists and nothing otherwise; when
`nth < 0` it yields the occurrence selected by Python negative indexing
from the end (`-1` = last) if `|nth|` does not exceed the occurrence count
and nothing otherwise; any selected date outside the `[start, end]` window
is discarded; and a month with too few occurrences contributes zero dates
without error.  `generate_dates` is exactly the concatenation of the
twelve monthly contributions. -/
theorem generate_dates_nth (rule : RecurringRule) (y m : Nat)
    (start stop : Option PyDate) :
    (rule.generate_dates y start stop
        = (List.range 12).flatMap (fun k => ruleMonthDates rule y (k + 1) start stop)) ∧
    (∀ (_hpos : 0 < rule.nth),
      (∀ (hlen : rule.nth.toNat ≤ (monthWeekdayDates y m rule.weekday).length)
          (hpos2 : 0 < rule.nth.toNat),
        ruleMonthDates rule y m start stop =
          windowFilter start stop ((monthWeekdayDates y m rule.weekday).get
            ⟨rule.nth.toNat - 1, by omega⟩)) ∧
      ((monthWeekdayDates y m rule.weekday).length < rule.nth.toNat →
        ruleMonthDates rule y m start stop = [])) ∧
    (∀ (hneg : rule.nth < 0),
      (∀ (hlen : rule.nth.natAbs ≤ (monthWeekdayDates y m rule.weekday).length),
        ruleMonthDates rule y m start stop =
          windowFilter start stop ((monthWeekdayDates y m rule.weekday).get
            ⟨(monthWeekdayDates y m rule.weekday).length - rule.nth.natAbs, by omega⟩)) ∧
      ((monthWeekdayDates y m rule.weekday).length < rule.nth.natAbs →
        ruleMonthDates rule y m start stop = [])) ∧
    (∀ d ∈ ruleMonthDates rule y m start stop,
      (∀ s, start = some s → dateLtB d s = false) ∧
      (∀ e, stop = some e → dateLtB e d = false)) := by
  refine ⟨rfl, ?_, ?_, ?_⟩
  · intro hpos
    constructor
    · intro hlen hpos2
      simp only [ruleMonthDates]
      rw [if_pos hpos]
      rw [if_pos (by omega)]
      rw [List.get?_eq_get (by omega)]
    · intro hlt
      simp only [ruleMonthDates]
      rw [if_pos hpos]
      rw [if_neg (by omega)]
  · intro hneg
    constructor
    · intro hlen
      simp only [ruleMonthDates]
      rw [if_neg (by omega)]
      rw [if_pos hlen]
      rw [if_neg (by omega)]
      rw [List.get?_eq_get (by omega)]
    · intro hlt
      simp only [ruleMonthDates]
      rw [if_neg (by omega)]
      rw [if_neg (by omega)]
  · intro d hd
    simp only [ruleMonthDates] at hd
    split at hd
    · exact absurd hd (List.not_mem_nil d)
    · rename_i t htg
      simp only [windowFilter] at hd
      split at hd
      · exact absurd hd (List.not_mem_nil d)
      · rename_i hc1
        split at hd
        · exact absurd hd (List.not_mem_nil d)
        · rename_i hc2
          have hdt : d = t := List.mem_singleton.mp hd
          subst hdt
          constructor
          · intro s hs
            rw [hs] at hc1
            simpa using hc1
          · intro e he
            rw [he] at hc2
            simpa using hc2

/-- Witness for C4: in January 2026 (Sundays on the 4th, 11th, 18th, 25th),
`nth = 1` yields the first Sunday and `nth = -1` the last. -/
theorem generate_dates_nth_witness :
    ruleMonthDates ⟨"r", "monthly", 6, 1, "combined", none, none, none, none, none⟩
        2026 1 (some ⟨2026, 1, 1⟩) (some ⟨2026, 12, 31⟩) = [⟨2026, 1, 4⟩] ∧
    ruleMonthDates ⟨"r", "monthly", 6, -1, "combined", none, none, none, none, none⟩
        2026 1 (some ⟨2026, 1, 1⟩) (some ⟨2026, 12, 31⟩) = [⟨2026, 1, 25⟩] := by
  constructor
  · have h := ((generate_dates_nth
      ⟨"r", "monthly", 6, 1, "combined", none, none, none, none, none⟩
      2026 1 (some ⟨2026, 1, 1⟩) (some ⟨2026, 12, 31⟩)).2.1 (by decide)).1
      (by decide) (by decide)
    rw [h]
    decide
  · have h := ((generate_dates_nth
      ⟨"r", "monthly", 6, -1, "combined", none, none, none, none, none⟩
      2026 1 (some ⟨2026, 1, 1⟩) (some ⟨2026, 12, 31⟩)).2.2.1 (by decide)).1
      (by decide)
    rw [h]
    decide

/-! ## C1: the strategy slot is hardcoded to `fair` -/

/-- C1 (code evidence): `assign_leaders` is definitionally the engine run
with `fair` — `build_schedule` and `assign_leaders` accept no strategy
name — and on a concrete input where the registry's `round_robin` would
choose differently, the engine's output is the `fair` output, not the
`round_robin` one.  (The CLI and GUI call
`build_schedule(year, …, strategy=…, min_gap_days=…)`, which the actual
signature `build_schedule(leaders_raw, groups_raw, rules_objs, start,
end=None)` rejects with a `TypeError`.) -/
theorem build_strategy_hardcoded :
    assign_leaders exC1Events exC1Leaders 2 =
      assignLeadersWith fairS exC1Events exC1Leaders 2 rngZero ∧
    assign_leaders exC1Events exC1Leaders 2 ≠
      assignLeadersWith roundRobinS exC1Events exC1Leaders 2 rngZero := by
  refine ⟨rfl, ?_⟩
  decide

/-! ## Engine fold lemmas -/

theorem engineStep_out (strat : StrategyFn) (leaders : List Leader) (lpe : Nat)
    (es : EngineState) (ev : Event) :
    ∃ a, (engineStep strat leaders lpe es ev).out = es.out ++ [a] ∧
      a.event = ev ∧ a.responsible_group = ev.responsible_group := by
  simp only [engineStep]
  split
  · exact ⟨_, rfl, rfl, rfl⟩
  · split
    · exact ⟨_, rfl, rfl, rfl⟩
    · exact ⟨_, rfl, rfl, rfl⟩

theorem engineFold_out_len (strat : StrategyFn) (leaders : List Leader) (lpe : Nat) :
    ∀ (l : List Event) (es : EngineState),
    ((l.foldl (engineStep strat leaders lpe) es).out).length = es.out.length + l.length := by
  intro l
  induction l with
  | nil => intro es; simp
  | cons ev t ih =>
    intro es
    rw [List.foldl_cons]
    rw [ih (engineStep strat leaders lpe es ev)]
    rcases engineStep_out strat leaders lpe es ev with ⟨a, ha, _, _⟩
    rw [ha]
    simp only [List.length_append, List.length_cons, List.length_nil, List.length_cons]
    omega

theorem engineFold_out_stable (strat : StrategyFn) (leaders : List Leader) (lpe : Nat) :
    ∀ (l : List Event) (es : EngineState) (j : Nat), j < es.out.length →
    ((l.foldl (engineStep strat leaders lpe) es).out).get? j = es.out.get? j := by
  intro l
  induction l with
  | nil => intro es j _; rfl
  | cons ev t ih =>
    intro es j hj
    rw [List.foldl_cons]
    rcases engineStep_out strat leaders lpe es ev with ⟨a, ha, _, _⟩
    have h1 : ((t.foldl (engineStep strat leaders lpe)
        (engineStep strat leaders lpe es ev)).out).get? j =
        ((engineStep strat leaders lpe es ev).out).get? j := by
      apply ih
      rw [ha]
      simp only [List.length_append]
      omega
    rw [h1, ha]
    exact List.get?_append hj

theorem engineFold_at (strat : StrategyFn) (leaders : List Leader) (lpe : Nat)
    (l : List Event) (es : EngineState) (i : Nat) (hi : i < l.length) :
    ((l.foldl (engineStep strat leaders lpe) es).out).get? (es.out.length + i) =
      ((engineStep strat leaders lpe ((l.take i).foldl (engineStep strat leaders lpe) es)
        (l.get ⟨i, hi⟩)).out).get? (es.out.length + i) := by
  conv_lhs => rw [← List.take_append_drop i l]
  rw [List.foldl_append]
  rw [List.drop_eq_get_cons hi]
  rw [List.foldl_cons]
  apply engineFold_out_stable
  rcases engineStep_out strat leaders lpe ((l.take i).foldl (engineStep strat leaders lpe) es)
    (l.get ⟨i, hi⟩) with ⟨a, ha, _, _⟩
  rw [ha]
  simp only [List.length_append]
  rw [engineFold_out_len]
  have hti : (List.take i l).length = i := by
    rw [List.length_take]
    omega
  rw [hti]
  simp only [List.length_cons, List.length_nil]
  omega

/-! ## C3: the gap filter is waived only when it empties the pool -/

/-- C3 (amended): in the leader pass for a combined leader-requiring event,
the 5-day gap filter is applied to the eligible set and is waived exactly
when it empties that set; the code keeps a non-empty filtered set even
when it under-supplies, computing the needed count from the filtered set.
So every chosen leader lies in the filtered set when it is non-empty, and
in the unfiltered eligible set otherwise.  (Inside the strategy, `fair`
additionally waives its own 5-day blackout — over the pool it was handed —
when the blackout under-supplies that pool.) -/
theorem gap_filter_soft (events : List Event) (leaders : List Leader) (lpe : Nat)
    (i : Nat) (hi : i < (prePassEvents events).length)
    (ev : Event) (hev : ev = (prePassEvents events).get ⟨i, hi⟩)
    (hk : ev.kind = "combined") (hr : ev.leader_required = true)
    (es : EngineState)
    (hes : es = ((prePassEvents events).take i).foldl (engineStep fairS leaders lpe)
      (initEngineState rngZero))
    (filt : List Leader)
    (hfilt : filt = (eligibleCombined leaders ev).filter (gapOkB es.last_assigned ev.date))
    (a : Assignment) (ha : (assign_leaders events leaders lpe).get? i = some a) :
    (filt ≠ [] → ∀ ld ∈ a.leaders, ld ∈ filt) ∧
    (filt = [] → ∀ ld ∈ a.leaders, ld ∈ eligibleCombined leaders ev) := by
  have hat := engineFold_at fairS leaders lpe (prePassEvents events) (initEngineState rngZero) i hi
  have hz : (initEngineState rngZero).out.length = 0 := rfl
  rw [hz, Nat.zero_add] at hat
  rw [assign_leaders, assignLeadersWith, hat, ← hes, ← hev] at ha
  have heslen : es.out.length = i := by
    rw [hes, engineFold_out_len]
    have hlt : ((prePassEvents events).take i).length = i := by
      rw [List.length_take]
      omega
    rw [hlt, hz]
    omega
  simp only [engineStep] at ha
  rw [if_neg (by rw [hr]; decide)] at ha
  rw [if_pos (by rw [hk]; rfl)] at ha
  rw [List.get?_append_right (by omega)] at ha
  rw [heslen, Nat.sub_self] at ha
  simp only [List.get?_cons_zero, Option.some.injEq] at ha
  subst ha
  have hemp_ne : filt ≠ [] →
      ((eligibleCombined leaders ev).filter (gapOkB es.last_assigned ev.date)).isEmpty = false := by
    intro hne
    rw [← hfilt]
    cases hf : filt with
    | nil => exact absurd hf hne
    | cons x xs => rfl
  have hemp_eq : filt = [] →
      ((eligibleCombined leaders ev).filter (gapOkB es.last_assigned ev.date)).isEmpty = true := by
    intro hemp
    rw [← hfilt, hemp]
    rfl
  have chosen_sub : ∀ (P : List Leader) (n : Nat) (st : StratState) (r : RngState),
      ∀ ld ∈ (if 0 < n then fairS P n st r else ([], st, r)).1, ld ∈ P := by
    intro P n st r ld hld
    split at hld
    · simp only [fairS] at hld
      exact fair_mem_pool _ _ _ ld hld
    · exact absurd hld (List.not_mem_nil ld)
  constructor
  · intro hne ld hld
    simp only at hld
    simp only [hemp_ne hne, Bool.false_eq_true, if_false] at hld
    rw [hfilt]
    exact chosen_sub _ _ _ _ ld hld
  · intro hemp ld hld
    simp only at hld
    simp only [hemp_eq hemp, if_true] at hld
    exact chosen_sub _ _ _ _ ld hld

/-- C3 counterexample: two leaders, a leader-mode event assigning Alice,
then three days later a combined team event.  The gap filter leaves only
Bob — non-empty but under-supplying the two requested leaders — and the
engine keeps the filtered singleton (assigning `[Bob]`) instead of
reverting to the full eligible pair as the claim demands; the spec-side
waive-on-under-supply engine assigns `[Bob, Alice]`. -/
theorem gap_filter_soft_cex :
    assign_leaders exC3Events exC3Leaders 2 ≠ assignLeadersSpecWaive exC3Events exC3Leaders 2 ∧
    (assign_leaders exC3Events exC3Leaders 2).map Assignment.leaders = [[ldAlice], [ldBob]] ∧
    (assignLeadersSpecWaive exC3Events exC3Leaders 2).map Assignment.leaders
      = [[ldAlice], [ldBob, ldAlice]] := by
  refine ⟨by decide, by decide, by decide⟩

/-- Witness for C3 at the counterexample input, event index 1: the
filtered set is the non-empty `[Bob]` and the chosen leaders all lie in
it. -/
theorem gap_filter_soft_witness :
    ((eligibleCombined exC3Leaders ((prePassEvents exC3Events).get ⟨1, by decide⟩)).filter
        (gapOkB (((prePassEvents exC3Events).take 1).foldl (engineStep fairS exC3Leaders 2)
            (initEngineState rngZero)).last_assigned
          ((prePassEvents exC3Events).get ⟨1, by decide⟩).date)) ≠ [] ∧
    ∀ ld ∈ (⟨(prePassEvents exC3Events).get ⟨1, by decide⟩, [ldBob], none⟩ : Assignment).leaders,
      ld ∈ ((eligibleCombined exC3Leaders ((prePassEvents exC3Events).get ⟨1, by decide⟩)).filter
        (gapOkB (((prePassEvents exC3Events).take 1).foldl (engineStep fairS exC3Leaders 2)
            (initEngineState rngZero)).last_assigned
          ((prePassEvents exC3Events).get ⟨1, by decide⟩).date)) := by
  refine ⟨by decide, ?_⟩
  have h := gap_filter_soft exC3Events exC3Leaders 2 1 (by decide)
    ((prePassEvents exC3Events).get ⟨1, by decide⟩) rfl (by decide) (by decide)
    (((prePassEvents exC3Events).take 1).foldl (engineStep fairS exC3Leaders 2)
      (initEngineState rngZero)) rfl
    ((eligibleCombined exC3Leaders ((prePassEvents exC3Events).get ⟨1, by decide⟩)).filter
      (gapOkB (((prePassEvents exC3Events).take 1).foldl (engineStep fairS exC3Leaders 2)
          (initEngineState rngZero)).last_assigned
        ((prePassEvents exC3Events).get ⟨1, by decide⟩).date)) rfl
    ⟨(prePassEvents exC3Events).get ⟨1, by decide⟩, [ldBob], none⟩ (by decide)
  exact h.1 (by decide)

/-! ## C9: determinism of the pipeline under `fair` / `round_robin`

The only randomness source in the program is the `random` module, embedded
as the oracle tape: a run is deterministic in its inputs exactly when its
output does not depend on the tape.  The two deterministic strategies
never read the tape, and that independence propagates through the engine. -/

theorem sepStep_oblivious (strat : StrategyFn)
    (hob : ∀ l c s r₁ r₂, (strat l c s r₁).1 = (strat l c s r₂).1 ∧
      (strat l c s r₁).2.1 = (strat l c s r₂).2.1)
    (leaders : List Leader) (d : PyDate) (grp : String)
    (g2l : List (String × Leader)) (st : StratState)
    (last : String → Option PyDate) (r₁ r₂ : RngState) :
    (sepStep strat leaders d (g2l, st, last, r₁) grp).1 =
      (sepStep strat leaders d (g2l, st, last, r₂) grp).1 ∧
    (sepStep strat leaders d (g2l, st, last, r₁) grp).2.1 =
      (sepStep strat leaders d (g2l, st, last, r₂) grp).2.1 ∧
    (sepStep strat leaders d (g2l, st, last, r₁) grp).2.2.1 =
      (sepStep strat leaders d (g2l, st, last, r₂) grp).2.2.1 := by
  simp only [sepStep]
  by_cases hE : ((if (List.filter (gapOkB last d) (eligibleSeparate leaders grp d)).isEmpty = true
      then eligibleSeparate leaders grp d
      else List.filter (gapOkB last d) (eligibleSeparate leaders grp d))).isEmpty = true
  · rw [if_pos hE, if_pos hE]
    exact ⟨rfl, rfl, rfl⟩
  · rw [if_neg hE, if_neg hE]
    rcases hx1 : strat (if (List.filter (gapOkB last d) (eligibleSeparate leaders grp d)).isEmpty = true
      then eligibleSeparate leaders grp d
      else List.filter (gapOkB last d) (eligibleSeparate leaders grp d)) 1 st r₁ with ⟨c1, s1, rr1⟩
    rcases hx2 : strat (if (List.filter (gapOkB last d) (eligibleSeparate leaders grp d)).isEmpty = true
      then eligibleSeparate leaders grp d
      else List.filter (gapOkB last d) (eligibleSeparate leaders grp d)) 1 st r₂ with ⟨c2, s2, rr2⟩
    have hc : c1 = c2 := by
      have hh := (hob (if (List.filter (gapOkB last d) (eligibleSeparate leaders grp d)).isEmpty = true
      then eligibleSeparate leaders grp d
      else List.filter (gapOkB last d) (eligibleSeparate leaders grp d)) 1 st r₁ r₂).1
      rw [hx1, hx2] at hh
      exact hh
    have hs : s1 = s2 := by
      have hh := (hob (if (List.filter (gapOkB last d) (eligibleSeparate leaders grp d)).isEmpty = true
      then eligibleSeparate leaders grp d
      else List.filter (gapOkB last d) (eligibleSeparate leaders grp d)) 1 st r₁ r₂).2
      rw [hx1, hx2] at hh
      exact hh
    subst hc
    subst hs
    cases c1 with
    | nil => exact ⟨rfl, rfl, rfl⟩
    | cons c cs => exact ⟨rfl, rfl, rfl⟩

theorem sepFold_oblivious (strat : StrategyFn)
    (hob : ∀ l c s r₁ r₂, (strat l c s r₁).1 = (strat l c s r₂).1 ∧
      (strat l c s r₁).2.1 = (strat l c s r₂).2.1)
    (leaders : List Leader) (d : PyDate) :
    ∀ (gs : List String) (g2l : List (String × Leader)) (st : StratState)
      (last : String → Option PyDate) (r₁ r₂ : RngState),
    (gs.foldl (sepStep strat leaders d) (g2l, st, last, r₁)).1 =
      (gs.foldl (sepStep strat leaders d) (g2l, st, last, r₂)).1 ∧
    (gs.foldl (sepStep strat leaders d) (g2l, st, last, r₁)).2.1 =
      (gs.foldl (sepStep strat leaders d) (g2l, st, last, r₂)).2.1 ∧
    (gs.foldl (sepStep strat leaders d) (g2l, st, last, r₁)).2.2.1 =
      (gs.foldl (sepStep strat leaders d) (g2l, st, last, r₂)).2.2.1 := by
  intro gs
  induction gs with
  | nil => intro g2l st last r₁ r₂; exact ⟨rfl, rfl, rfl⟩
  | cons g t ih =>
    intro g2l st last r₁ r₂
    simp only [List.foldl_cons]
    rcases h1 : sepStep strat leaders d (g2l, st, last, r₁) g with ⟨a1, b1, c1, d1⟩
    rcases h2 : sepStep strat leaders d (g2l, st, last, r₂) g with ⟨a2, b2, c2, d2⟩
    have hstep := sepStep_oblivious strat hob leaders d g g2l st last r₁ r₂
    rw [h1, h2] at hstep
    obtain ⟨ha, hb, hc⟩ := hstep
    simp only at ha hb hc
    subst ha
    subst hb
    subst hc
    exact ih a1 b1 c1 d1 d2

theorem engineStep_oblivious (strat : StrategyFn)
    (hob : ∀ l c s r₁ r₂, (strat l c s r₁).1 = (strat l c s r₂).1 ∧
      (strat l c s r₁).2.1 = (strat l c s r₂).2.1)
    (leaders : List Leader) (lpe : Nat) (ev : Event)
    (s1 s2 : EngineState) (r₁ r₂ : RngState)
    (hs : s1.strat_state = s2.strat_state) (hl : s1.last_assigned = s2.last_assigned)
    (ho : s1.out = s2.out) (hr1 : s1.rng = r₁) (hr2 : s2.rng = r₂) :
    (engineStep strat leaders lpe s1 ev).strat_state =
      (engineStep strat leaders lpe s2 ev).strat_state ∧
    (engineStep strat leaders lpe s1 ev).last_assigned =
      (engineStep strat leaders lpe s2 ev).last_assigned ∧
    (engineStep strat leaders lpe s1 ev).out = (engineStep strat leaders lpe s2 ev).out := by
  have hpair : ∀ (E : List Leader) (n : Nat) (st : StratState),
      (if 0 < n then strat E n st r₁ else ([], st, r₁)).1 =
        (if 0 < n then strat E n st r₂ else ([], st, r₂)).1 ∧
      (if 0 < n then strat E n st r₁ else ([], st, r₁)).2.1 =
        (if 0 < n then strat E n st r₂ else ([], st, r₂)).2.1 := by
    intro E n st
    by_cases hn : 0 < n
    · rw [if_pos hn, if_pos hn]
      exact ⟨(hob E n st r₁ r₂).1, (hob E n st r₁ r₂).2⟩
    · rw [if_neg hn, if_neg hn]
      exact ⟨rfl, rfl⟩
  simp only [engineStep]
  split
  · refine ⟨?_, ?_, ?_⟩ <;> simp [hs, hl, ho]
  · split
    · simp only [hs, hl, ho, hr1, hr2]
      refine ⟨(hpair _ _ _).2, ?_, ?_⟩
      · rw [(hpair _ _ _).1]
      · rw [(hpair _ _ _).1]
    · simp only [hs, hl, ho, hr1, hr2]
      rcases sepFold_oblivious strat hob leaders ev.date ev.groups_involved []
        { s2.strat_state with current_date := some ev.date } s2.last_assigned r₁ r₂ with
        ⟨hA, hB, hC⟩
      refine ⟨hB, hC, ?_⟩
      rw [hA]

theorem engineFold_oblivious (strat : StrategyFn)
    (hob : ∀ l c s r₁ r₂, (strat l c s r₁).1 = (strat l c s r₂).1 ∧
      (strat l c s r₁).2.1 = (strat l c s r₂).2.1)
    (leaders : List Leader) (lpe : Nat) :
    ∀ (l : List Event) (s1 s2 : EngineState),
    s1.strat_state = s2.strat_state → s1.last_assigned = s2.last_assigned →
    s1.out = s2.out →
    (l.foldl (engineStep strat leaders lpe) s1).out =
      (l.foldl (engineStep strat leaders lpe) s2).out := by
  intro l
  induction l with
  | nil =>
    intro s1 s2 _ _ ho
    exact ho
  | cons ev t ih =>
    intro s1 s2 hs hl ho
    simp only [List.foldl_cons]
    rcases engineStep_oblivious strat hob leaders lpe ev s1 s2 s1.rng s2.rng
      hs hl ho rfl rfl with ⟨hA, hB, hC⟩
    exact ih _ _ hA hB hC

theorem assignLeadersWith_oblivious (strat : StrategyFn)
    (hob : ∀ l c s r₁ r₂, (strat l c s r₁).1 = (strat l c s r₂).1 ∧
      (strat l c s r₁).2.1 = (strat l c s r₂).2.1)
    (events : List Event) (leaders : List Leader) (lpe : Nat) (r₁ r₂ : RngState) :
    assignLeadersWith strat events leaders lpe r₁ =
      assignLeadersWith strat events leaders lpe r₂ := by
  simp only [assignLeadersWith]
  exact engineFold_oblivious strat hob leaders lpe (prePassEvents events)
    (initEngineState r₁) (initEngineState r₂) rfl rfl rfl

/-- C9: `build_schedule` is deterministic under the deterministic
strategies: with identical leader, group and rule inputs and the same
window, two runs of the pipeline using `fair` or `round_robin` — differing
only in the state of the `random` module, the program's sole randomness
source — produce identical Schedules.  (As written, `build_schedule`
always runs `fair`; the registry's `round_robin` enjoys the same property
through the strategy-generalised engine.) -/
theorem build_schedule_deterministic (lr : List RawLeader) (gr : List RawGroup)
    (rules : List RecurringRule) (start : PyDate) (stop : Option PyDate)
    (r₁ r₂ : RngState) :
    buildScheduleWith fairS r₁ lr gr rules start stop =
      buildScheduleWith fairS r₂ lr gr rules start stop ∧
    buildScheduleWith roundRobinS r₁ lr gr rules start stop =
      buildScheduleWith roundRobinS r₂ lr gr rules start stop ∧
    build_schedule lr gr rules start stop = buildScheduleWith fairS rngZero lr gr rules start stop := by
  refine ⟨?_, ?_, rfl⟩
  · simp only [buildScheduleWith]
    exact congrArg Schedule.mk (assignLeadersWith_oblivious fairS
      (fun l c s a b => ⟨rfl, rfl⟩) _ _ 2 r₁ r₂)
  · simp only [buildScheduleWith]
    exact congrArg Schedule.mk (assignLeadersWith_oblivious roundRobinS
      (fun l c s a b => ⟨rfl, rfl⟩) _ _ 2 r₁ r₂)

/-! ## Lemmas about the rotation pre-pass (used by C10 and C5) -/

theorem rotMonthStep_choices (s : RotState) (ie : Nat × Event) :
    (rotMonthStep s ie).choices = s.choices ∨
    ∃ g, (rotMonthStep s ie).choices = s.choices ++ [(ie.1, g)] ∧
      isGroupRotEvent ie.2 = true ∧ g ∈ ie.2.rotation_pool.getD [] := by
  simp only [rotMonthStep]
  split
  · rename_i hgrp
    split
    · exact Or.inl rfl
    · rename_i g rest hsort
      refine Or.inr ⟨g, rfl, hgrp, ?_⟩
      have : g ∈ sSort (rotCandLt s.month_used s.global_usage) (ie.2.rotation_pool.getD []) := by
        rw [hsort]
        exact List.mem_cons_self g rest
      exact (mem_sSort _ _ g).mp this
  · exact Or.inl rfl

theorem rotMonthRun_mem : ∀ (L : List (Nat × Event)) (s : RotState),
    ∀ p ∈ (L.foldl rotMonthStep s).choices, p ∈ s.choices ∨
      ∃ ie ∈ L, p.1 = ie.1 ∧ isGroupRotEvent ie.2 = true ∧
        p.2 ∈ ie.2.rotation_pool.getD [] := by
  intro L
  induction L with
  | nil =>
    intro s p hp
    exact Or.inl hp
  | cons ie t ih =>
    intro s p hp
    rw [List.foldl_cons] at hp
    rcases ih (rotMonthStep s ie) p hp with h1 | ⟨ie2, hie2, h2⟩
    · rcases rotMonthStep_choices s ie with hc | ⟨g, hc, hgrp, hpool⟩
      · rw [hc] at h1
        exact Or.inl h1
      · rw [hc] at h1
        rcases List.mem_append.mp h1 with h3 | h3
        · exact Or.inl h3
        · have heq : p = (ie.1, g) := List.mem_singleton.mp h3
          refine Or.inr ⟨ie, List.mem_cons_self _ _, ?_, hgrp, ?_⟩
          · rw [heq]
          · rw [heq]
            exact hpool
    · exact Or.inr ⟨ie2, List.mem_cons_of_mem _ hie2, h2⟩

theorem rotPrePass_entry (events : List Event) (i : Nat) (g : String)
    (h : (i, g) ∈ rotPrePass events) :
    ∃ e, (i, e) ∈ events.enum ∧ isGroupRotEvent e = true ∧
      g ∈ e.rotation_pool.getD [] := by
  rw [rotPrePass] at h
  -- fold over the month keys
  have main : ∀ (ks : List (Nat × Nat)) (s : RotState),
      ∀ p ∈ (ks.foldl (fun s k => (sSort evDateDescLt (rotBucket events k)).foldl
          rotMonthStep { s with month_used := [] }) s).choices,
      p ∈ s.choices ∨ ∃ e, (p.1, e) ∈ events.enum ∧ isGroupRotEvent e = true ∧
        p.2 ∈ e.rotation_pool.getD [] := by
    intro ks
    induction ks with
    | nil =>
      intro s p hp
      exact Or.inl hp
    | cons k t ih =>
      intro s p hp
      rw [List.foldl_cons] at hp
      rcases ih _ p hp with h1 | h2
      · rcases rotMonthRun_mem _ _ p h1 with h3 | ⟨ie, hie, hfst, hgrp, hpool⟩
        · exact Or.inl h3
        · have hie2 : ie ∈ events.enum :=
            List.mem_of_mem_filter ((mem_sSort _ _ ie).mp hie)
          refine Or.inr ⟨ie.2, ?_, hgrp, hpool⟩
          rw [hfst]
          exact hie2
      · exact Or.inr h2
  rcases main (monthKeysOf events) {} (i, g) h with h1 | h2
  · exact absurd h1 (List.not_mem_nil _)
  · exact h2

theorem enum_snd_eq (l : List Event) (i : Nat) (e1 e2 : Event)
    (h1 : (i, e1) ∈ l.enum) (h2 : (i, e2) ∈ l.enum) : e1 = e2 := by
  have g1 := List.mk_mem_enum_iff_get?.mp h1
  have g2 := List.mk_mem_enum_iff_get?.mp h2
  rw [g1] at g2
  exact Option.some.inj g2

theorem prePassEvents_char (events : List Event)
    (h0 : ∀ e ∈ events, e.responsible_group = none) :
    ∀ e2 ∈ prePassEvents events,
      (e2.responsible_group = none) ∨
      (∃ e g, e2 = { e with responsible_group := some g } ∧
        isGroupRotEvent e = true ∧ g ∈ e.rotation_pool.getD []) := by
  intro e2 he2
  simp only [prePassEvents] at he2
  rcases List.mem_map.mp he2 with ⟨ie, hie, hf⟩
  cases hlk : (rotPrePass events).lookup ie.1 with
  | none =>
    rw [hlk] at hf
    refine Or.inl ?_
    rw [← hf]
    have hmem : ie.2 ∈ events := by
      have := List.mk_mem_enum_iff_get?.mp (show (ie.1, ie.2) ∈ events.enum from hie)
      exact List.get?_mem this
    exact h0 ie.2 hmem
  | some g =>
    rw [hlk] at hf
    have hmem := lookup_mem _ _ _ hlk
    rcases rotPrePass_entry events ie.1 g hmem with ⟨e, hee, hgrp, hpool⟩
    have heq : e = ie.2 := enum_snd_eq events ie.1 e ie.2 hee hie
    refine Or.inr ⟨ie.2, g, hf.symm, heq ▸ hgrp, heq ▸ hpool⟩

theorem engineFold_out_mem (strat : StrategyFn) (leaders : List Leader) (lpe : Nat) :
    ∀ (l : List Event) (es : EngineState) (a : Assignment),
    a ∈ (l.foldl (engineStep strat leaders lpe) es).out →
    a ∈ es.out ∨ ∃ ev ∈ l, a.event = ev ∧ a.responsible_group = ev.responsible_group := by
  intro l
  induction l with
  | nil =>
    intro es a ha
    exact Or.inl ha
  | cons ev t ih =>
    intro es a ha
    rw [List.foldl_cons] at ha
    rcases ih _ a ha with h1 | ⟨ev2, hev2, h2⟩
    · rcases engineStep_out strat leaders lpe es ev with ⟨b, hb, hbev, hbrg⟩
      rw [hb] at h1
      rcases List.mem_append.mp h1 with h3 | h3
      · exact Or.inl h3
      · have hab : a = b := List.mem_singleton.mp h3
        exact Or.inr ⟨ev, List.mem_cons_self _ _, hab ▸ hbev, hab ▸ hbrg⟩
    · exact Or.inr ⟨ev2, List.mem_cons_of_mem _ hev2, h2⟩

/-! ## C10: resolved responsible groups -/

/-- C10: with all input events starting with no resolved group, every
assignment produced by `assign_leaders` copies its event's
`responsible_group`, and that field is non-`None` only for events whose
responsibility mode is `"group"` with a non-empty rotation pool, in which
case the resolved group is a member of that pool; all other events keep
`responsible_group = None`. -/
theorem assign_responsible_group (events : List Event) (leaders : List Leader)
    (lpe : Nat) (h0 : ∀ e ∈ events, e.responsible_group = none) :
    ∀ a ∈ assign_leaders events leaders lpe,
      a.responsible_group = a.event.responsible_group ∧
      (a.responsible_group ≠ none →
        a.event.responsibility_mode = "group" ∧
        ∃ p, a.event.rotation_pool = some p ∧ p ≠ [] ∧
          ∃ g, a.responsible_group = some g ∧ g ∈ p) := by
  intro a ha
  rw [assign_leaders, assignLeadersWith] at ha
  rcases engineFold_out_mem fairS leaders lpe (prePassEvents events)
      (initEngineState rngZero) a ha with h1 | ⟨ev, hev, haev, harg⟩
  · exact absurd h1 (List.not_mem_nil a)
  · refine ⟨by rw [haev, harg], ?_⟩
    intro hne
    rcases prePassEvents_char events h0 ev hev with h2 | ⟨e, g, hee, hgrp, hpool⟩
    · rw [harg, h2] at hne
      exact absurd rfl hne
    · simp only [isGroupRotEvent, Bool.and_eq_true] at hgrp
      have hmode : e.responsibility_mode = "group" := by
        have := hgrp.1
        simpa using this
      have hpoolshape : ∃ x xs, e.rotation_pool = some (x :: xs) := by
        rcases hgrp.2 with h3
        cases hrp : e.rotation_pool with
        | none => rw [hrp] at h3; simp at h3
        | some l2 =>
          cases l2 with
          | nil => rw [hrp] at h3; simp at h3
          | cons x xs => exact ⟨x, xs, rfl⟩
      rcases hpoolshape with ⟨x, xs, hrp⟩
      refine ⟨?_, x :: xs, ?_, by simp, g, ?_, ?_⟩
      · rw [haev, hee]
        exact hmode
      · rw [haev, hee]
        exact hrp
      · rw [harg, hee]
      · have := hpool
        rw [hrp] at this
        simpa using this

/-- Witness for C10 on a concrete run: the first group-mode event's
assignment resolves to `g1`, a member of its pool. -/
theorem assign_responsible_group_witness :
    (⟨{ evGroupMode ⟨2026, 1, 5⟩ "a" ["g1", "g2"] with responsible_group := some "g1" },
        [], some "g1"⟩ : Assignment) ∈ assign_leaders exC5Events [] 2 ∧
    ((⟨{ evGroupMode ⟨2026, 1, 5⟩ "a" ["g1", "g2"] with responsible_group := some "g1" },
        [], some "g1"⟩ : Assignment)).event.responsibility_mode = "group" ∧
    ∃ p, ((⟨{ evGroupMode ⟨2026, 1, 5⟩ "a" ["g1", "g2"] with responsible_group := some "g1" },
        [], some "g1"⟩ : Assignment)).event.rotation_pool = some p ∧ p ≠ [] ∧
      ∃ g, ((⟨{ evGroupMode ⟨2026, 1, 5⟩ "a" ["g1", "g2"] with responsible_group := some "g1" },
        [], some "g1"⟩ : Assignment)).responsible_group = some g ∧ g ∈ p := by
  have hm : (⟨{ evGroupMode ⟨2026, 1, 5⟩ "a" ["g1", "g2"] with responsible_group := some "g1" },
      [], some "g1"⟩ : Assignment) ∈ assign_leaders exC5Events [] 2 := by decide
  have h := assign_responsible_group exC5Events [] 2 (by decide) _ hm
  exact ⟨hm, (h.2 (by decide)).1, (h.2 (by decide)).2⟩

/-! ## C5: per-month rotation fold invariants -/

theorem insertUsed_mem (mu : List String) (g x : String) :
    x ∈ insertUsed mu g ↔ x ∈ mu ∨ x = g := by
  simp only [insertUsed]
  split
  · rename_i hg
    constructor
    · exact Or.inl
    · intro h
      rcases h with h | h
      · exact h
      · rw [h]; exact hg
  · simp [List.mem_append]

theorem insertUsed_self (mu : List String) (g : String) : g ∈ insertUsed mu g := by
  rw [insertUsed_mem]
  exact Or.inr rfl

theorem insertUsed_nodup (mu : List String) (g : String) (h : mu.Nodup) :
    (insertUsed mu g).Nodup := by
  simp only [insertUsed]
  split
  · exact h
  · rename_i hg
    simp [List.nodup_append, h, hg]

theorem insertUsed_len (mu : List String) (g : String) :
    (insertUsed mu g).length ≤ mu.length + 1 := by
  simp only [insertUsed]
  split
  · omega
  · simp

theorem rotMonthStep_char (s : RotState) (ie : Nat × Event) :
    (rotMonthStep s ie = s) ∨
    (isGroupRotEvent ie.2 = true ∧ ∃ g rest,
      sSort (rotCandLt s.month_used s.global_usage) (ie.2.rotation_pool.getD []) = g :: rest ∧
      rotMonthStep s ie = { month_used := insertUsed s.month_used g,
                            global_usage := (fun n => if n = g then s.global_usage g + 1 else s.global_usage n),
                            choices := s.choices ++ [(ie.1, g)] }) := by
  simp only [rotMonthStep]
  split
  · rename_i hgrp
    split
    · exact Or.inl rfl
    · rename_i g rest hsort
      exact Or.inr ⟨hgrp, g, rest, hsort, rfl⟩
  · exact Or.inl rfl

theorem rotRun_mu_mono : ∀ (L : List (Nat × Event)) (s : RotState) (x : String),
    x ∈ s.month_used → x ∈ (L.foldl rotMonthStep s).month_used := by
  intro L
  induction L with
  | nil => intro s x hx; exact hx
  | cons ie t ih =>
    intro s x hx
    rw [List.foldl_cons]
    refine ih _ x ?_
    rcases rotMonthStep_char s ie with h | ⟨_, g, rest, _, h⟩
    · rw [h]; exact hx
    · rw [h]
      exact (insertUsed_mem _ _ _).mpr (Or.inl hx)

theorem rotRun_mu_nodup : ∀ (L : List (Nat × Event)) (s : RotState),
    s.month_used.Nodup → (L.foldl rotMonthStep s).month_used.Nodup := by
  intro L
  induction L with
  | nil => intro s h; exact h
  | cons ie t ih =>
    intro s h
    rw [List.foldl_cons]
    refine ih _ ?_
    rcases rotMonthStep_char s ie with hc | ⟨_, g, rest, _, hc⟩
    · rw [hc]; exact h
    · rw [hc]
      exact insertUsed_nodup _ _ h

theorem rotRun_mu_len : ∀ (L : List (Nat × Event)) (s : RotState),
    (L.foldl rotMonthStep s).month_used.length ≤ s.month_used.length + rotCount L := by
  intro L
  induction L with
  | nil => intro s; simp [rotCount]
  | cons ie t ih =>
    intro s
    rw [List.foldl_cons]
    have hcount : rotCount (ie :: t) = rotCount t + (if isGroupRotEvent ie.2 = true then 1 else 0) := by
      simp only [rotCount, List.countP_cons]
    rw [hcount]
    rcases rotMonthStep_char s ie with hc | ⟨hgrp, g, rest, _, hc⟩
    · rw [hc]
      have hih := ih s
      split <;> omega
    · rw [hc]
      have hih := ih { month_used := insertUsed s.month_used g,
                       global_usage := (fun n => if n = g then s.global_usage g + 1 else s.global_usage n),
                       choices := s.choices ++ [(ie.1, g)] }
      simp only at hih
      have hlen := insertUsed_len s.month_used g
      rw [hgrp, if_pos rfl]
      omega

theorem rotRun_choices_in_mu : ∀ (L : List (Nat × Event)) (s : RotState),
    ∀ p ∈ (L.foldl rotMonthStep s).choices,
      p ∈ s.choices ∨ p.2 ∈ (L.foldl rotMonthStep s).month_used := by
  intro L
  induction L with
  | nil => intro s p hp; exact Or.inl hp
  | cons ie t ih =>
    intro s p hp
    rw [List.foldl_cons] at hp ⊢
    rcases ih _ p hp with h1 | h2
    · rcases rotMonthStep_char s ie with hc | ⟨_, g, rest, _, hc⟩
      · rw [hc] at h1
        exact Or.inl h1
      · rw [hc] at h1
        simp only at h1
        rcases List.mem_append.mp h1 with h3 | h3
        · exact Or.inl h3
        · have heq : p = (ie.1, g) := List.mem_singleton.mp h3
          refine Or.inr ?_
          refine rotRun_mu_mono t _ p.2 ?_
          rw [hc]
          rw [heq]
          exact insertUsed_self _ _
    · exact Or.inr h2

theorem rotRun_choices_mono : ∀ (L : List (Nat × Event)) (s : RotState),
    ∀ p ∈ s.choices, p ∈ (L.foldl rotMonthStep s).choices := by
  intro L
  induction L with
  | nil => intro s p hp; exact hp
  | cons ie t ih =>
    intro s p hp
    rw [List.foldl_cons]
    refine ih _ p ?_
    rcases rotMonthStep_char s ie with hc | ⟨_, g, rest, _, hc⟩
    · rw [hc]; exact hp
    · rw [hc]
      exact List.mem_append_left _ hp

/-! ## The candidate-tuple order of the pre-pass -/

theorem rotCandLt_true_iff (mu : List String) (u : String → Nat) (a b : String) :
    rotCandLt mu u a b = true ↔
      ((a ∉ mu ∧ b ∈ mu) ∨
        ((a ∈ mu ↔ b ∈ mu) ∧ (u a < u b ∨ (u a = u b ∧ strLtB a b = true)))) := by
  simp only [rotCandLt, Bool.or_eq_true, Bool.and_eq_true, Bool.not_eq_true',
    decide_eq_false_iff_not, decide_eq_true_eq, beq_iff_eq, decide_eq_decide]

theorem rotCandLt_irrefl (mu : List String) (u : String → Nat) (a : String) :
    rotCandLt mu u a a = false := by
  simp [rotCandLt, strLtB_irrefl]

theorem rotCandLt_asymm (mu : List String) (u : String → Nat) (a b : String)
    (h : rotCandLt mu u a b = true) : rotCandLt mu u b a = false := by
  rw [rotCandLt_true_iff] at h
  rw [Bool.eq_false_iff, Ne, rotCandLt_true_iff]
  intro h2
  rcases h with ⟨ha, hb⟩ | ⟨hiff, h⟩
  · rcases h2 with ⟨hb2, ha2⟩ | ⟨hiff2, _⟩
    · exact ha ha2
    · exact ha (hiff2.mp hb)
  · rcases h2 with ⟨hb2, ha2⟩ | ⟨hiff2, h2⟩
    · exact hb2 (hiff.mp ha2)
    · rcases h with h | ⟨he, h⟩
      · rcases h2 with h2 | ⟨he2, _⟩
        · omega
        · omega
      · rcases h2 with h2 | ⟨he2, h2⟩
        · omega
        · rw [strLtB_asymm _ _ h] at h2
          exact absurd h2 (by simp)

theorem rotCandLt_trans (mu : List String) (u : String → Nat) (a b c : String)
    (h1 : rotCandLt mu u a b = true) (h2 : rotCandLt mu u b c = true) :
    rotCandLt mu u a c = true := by
  rw [rotCandLt_true_iff] at h1 h2 ⊢
  rcases h1 with ⟨ha, hb⟩ | ⟨hiff1, hr1⟩
  · rcases h2 with ⟨hb2, hc⟩ | ⟨hiff2, hr2⟩
    · exact absurd hb hb2
    · exact Or.inl ⟨ha, hiff2.mp hb⟩
  · rcases h2 with ⟨hb2, hc⟩ | ⟨hiff2, hr2⟩
    · exact Or.inl ⟨fun haa => hb2 (hiff1.mp haa), hc⟩
    · refine Or.inr ⟨hiff1.trans hiff2, ?_⟩
      rcases hr1 with hr1 | ⟨he1, hs1⟩
      · rcases hr2 with hr2 | ⟨he2, _⟩
        · omega
        · omega
      · rcases hr2 with hr2 | ⟨he2, hs2⟩
        · omega
        · exact Or.inr ⟨by omega, strLtB_trans _ _ _ hs1 hs2⟩

theorem rotCandLt_false_char (mu : List String) (u : String → Nat) (a b : String) :
    rotCandLt mu u a b = false ↔ (rotCandLt mu u b a = true ∨ a = b) := by
  constructor
  · intro h
    by_cases heq : a = b
    · exact Or.inr heq
    · refine Or.inl ?_
      rw [Bool.eq_false_iff, Ne, rotCandLt_true_iff] at h
      rw [rotCandLt_true_iff]
      by_cases ha : a ∈ mu <;> by_cases hb : b ∈ mu
      · refine Or.inr ⟨by tauto, ?_⟩
        rcases Nat.lt_trichotomy (u a) (u b) with hu | hu | hu
        · exact absurd (Or.inr ⟨by tauto, Or.inl hu⟩) h
        · rcases strLtB_total a b with hs | hs | hs
          · exact absurd (Or.inr ⟨by tauto, Or.inr ⟨hu, hs⟩⟩) h
          · exact Or.inr ⟨hu.symm, hs⟩
          · exact absurd hs heq
        · exact Or.inl hu
      · exact Or.inl ⟨hb, ha⟩
      · exact absurd (Or.inl ⟨ha, hb⟩) h
      · refine Or.inr ⟨by tauto, ?_⟩
        rcases Nat.lt_trichotomy (u a) (u b) with hu | hu | hu
        · exact absurd (Or.inr ⟨by tauto, Or.inl hu⟩) h
        · rcases strLtB_total a b with hs | hs | hs
          · exact absurd (Or.inr ⟨by tauto, Or.inr ⟨hu, hs⟩⟩) h
          · exact Or.inr ⟨hu.symm, hs⟩
          · exact absurd hs heq
        · exact Or.inl hu
  · intro h
    rcases h with h | h
    · exact rotCandLt_asymm mu u b a h
    · rw [h]
      exact rotCandLt_irrefl mu u b

theorem rotCandLt_negtrans (mu : List String) (u : String → Nat) (a b c : String)
    (h1 : rotCandLt mu u b a = false) (h2 : rotCandLt mu u c b = false) :
    rotCandLt mu u c a = false := by
  rw [rotCandLt_false_char] at h1 h2 ⊢
  rcases h1 with h1 | h1
  · rcases h2 with h2 | h2
    · exact Or.inl (rotCandLt_trans mu u a b c h1 h2)
    · rw [h2]
      exact Or.inl h1
  · rcases h2 with h2 | h2
    · rw [← h1]
      exact Or.inl h2
    · exact Or.inr (h2.trans h1)

theorem exists_unused (P mu : List String) (hnd : P.Nodup)
    (hlen : mu.length < P.length) : ∃ g ∈ P, g ∉ mu := by
  by_contra hcon
  push_neg at hcon
  have h1 : P.toFinset.card = P.length := List.toFinset_card_of_nodup hnd
  have h2 : P.toFinset ⊆ mu.toFinset := by
    intro x hx
    rw [List.mem_toFinset] at hx ⊢
    exact hcon x hx
  have h3 : P.toFinset.card ≤ mu.toFinset.card := Finset.card_le_card h2
  have h4 : mu.toFinset.card ≤ mu.length := mu.toFinset_card_le
  omega

theorem rot_pick_fresh (mu : List String) (u : String → Nat) (P : List String)
    (hnd : P.Nodup) (hlen : mu.length < P.length)
    (g : String) (rest : List String)
    (hsort : sSort (rotCandLt mu u) P = g :: rest) : g ∉ mu ∧ g ∈ P := by
  have hgP : g ∈ P := by
    have : g ∈ sSort (rotCandLt mu u) P := by
      rw [hsort]
      exact List.mem_cons_self g rest
    exact (mem_sSort _ _ g).mp this
  refine ⟨?_, hgP⟩
  rcases exists_unused P mu hnd hlen with ⟨g0, hg0P, hg0mu⟩
  have hmin := sSort_head_min (rotCandLt mu u) (rotCandLt_asymm mu u)
    (rotCandLt_negtrans mu u) (rotCandLt_irrefl mu u) P g rest hsort g0 hg0P
  intro hgmu
  have hlt : rotCandLt mu u g0 g = true := by
    rw [rotCandLt_true_iff]
    exact Or.inl ⟨hg0mu, hgmu⟩
  rw [hmin] at hlt
  exact absurd hlt (by simp)

/-! ## Positional analysis of the month fold -/

theorem rotCount_append (A B : List (Nat × Event)) :
    rotCount (A ++ B) = rotCount A + rotCount B := by
  simp [rotCount, List.countP_append]

theorem rotCount_cons (ie : Nat × Event) (t : List (Nat × Event)) :
    rotCount (ie :: t) = rotCount t + (if isGroupRotEvent ie.2 = true then 1 else 0) := by
  simp only [rotCount, List.countP_cons]

theorem rotMonthStep_append_choice (s : RotState) (ie : Nat × Event)
    (hgrp : isGroupRotEvent ie.2 = true) (g : String) (rest : List String)
    (hsort : sSort (rotCandLt s.month_used s.global_usage)
      (ie.2.rotation_pool.getD []) = g :: rest) :
    (rotMonthStep s ie).choices = s.choices ++ [(ie.1, g)] := by
  simp only [rotMonthStep, hgrp, if_true]
  rw [hsort]

theorem key_mem_unique : ∀ (L : List (Nat × Event)),
    ((L.map Prod.fst)).Nodup → ∀ (i : Nat) (x y : Event),
    (i, x) ∈ L → (i, y) ∈ L → x = y := by
  intro L
  induction L with
  | nil =>
    intro _ i x y hx _
    exact absurd hx (List.not_mem_nil _)
  | cons p t ih =>
    intro hnd i x y hx hy
    rw [List.map_cons] at hnd
    have hnd2 := List.nodup_cons.mp hnd
    rcases List.mem_cons.mp hx with h1 | h1
    · rcases List.mem_cons.mp hy with h2 | h2
      · rw [← h1] at h2
        exact ((Prod.mk.injEq _ _ _ _).mp h2.symm).2
      · exfalso
        have hkey : i ∈ t.map Prod.fst := List.mem_map_of_mem Prod.fst h2
        have hp : p.1 = i := by rw [← h1]
        exact hnd2.1 (by rw [hp]; exact hkey)
    · rcases List.mem_cons.mp hy with h2 | h2
      · exfalso
        have hkey : i ∈ t.map Prod.fst := List.mem_map_of_mem Prod.fst h1
        have hp : p.1 = i := by rw [← h2]
        exact hnd2.1 (by rw [hp]; exact hkey)
      · exact ih hnd2.2 i x y h1 h2

theorem nodup_key_decomp : ∀ (C : List (Nat × Event)) (D C2 D2 : List (Nat × Event))
    (x x2 : Nat × Event),
    (((C ++ x :: D).map Prod.fst)).Nodup → C ++ x :: D = C2 ++ x2 :: D2 →
    x.1 = x2.1 → C = C2 ∧ x = x2 ∧ D = D2 := by
  intro C
  induction C with
  | nil =>
    intro D C2 D2 x x2 hnd heq hk
    cases C2 with
    | nil =>
      simp only [List.nil_append] at heq
      injection heq with h1 h2
      exact ⟨rfl, h1, h2⟩
    | cons c C2t =>
      exfalso
      simp only [List.nil_append, List.cons_append, List.cons.injEq] at heq
      rcases heq with ⟨hxc, hD⟩
      have hmem : x2.1 ∈ D.map Prod.fst := by
        rw [hD]
        simp only [List.map_append, List.map_cons]
        exact List.mem_append_right _ (List.mem_cons_self _ _)
      simp only [List.nil_append, List.map_cons] at hnd
      have hnd2 := List.nodup_cons.mp hnd
      rw [← hk] at hmem
      exact hnd2.1 hmem
  | cons c Ct ih =>
    intro D C2 D2 x x2 hnd heq hk
    cases C2 with
    | nil =>
      exfalso
      simp only [List.nil_append, List.cons_append, List.cons.injEq] at heq
      rcases heq with ⟨hcx2, hD2⟩
      have hmem : x.1 ∈ (Ct ++ x :: D).map Prod.fst := by
        simp only [List.map_append, List.map_cons]
        exact List.mem_append_right _ (List.mem_cons_self _ _)
      simp only [List.cons_append, List.map_cons] at hnd
      have hnd2 := List.nodup_cons.mp hnd
      refine hnd2.1 ?_
      rw [show c.1 = x.1 from (congrArg Prod.fst hcx2).trans hk.symm]
      exact hmem
    | cons c2 C2t =>
      simp only [List.cons_append, List.cons.injEq] at heq
      rcases heq with ⟨hcc2, ht⟩
      simp only [List.cons_append, List.map_cons] at hnd
      have hnd2 := List.nodup_cons.mp hnd
      rcases ih D C2t D2 x x2 hnd2.2 ht hk with ⟨h1, h2, h3⟩
      exact ⟨by simp [hcc2, h1], h2, h3⟩

/-- Core freshness: the pick made for a group event at position `x` differs
from every group already in the month-used set at that point. -/
theorem rot_core (L C D : List (Nat × Event)) (x : Nat × Event) (s : RotState)
    (hmu : s.month_used = []) (hdec : L = C ++ x :: D)
    (hgrp : isGroupRotEvent x.2 = true)
    (P : List String) (_hpool : x.2.rotation_pool.getD [] = P) (hnd : P.Nodup)
    (hcount : rotCount L ≤ P.length)
    (gx : String) (rest : List String)
    (hsort : sSort (rotCandLt (C.foldl rotMonthStep s).month_used
      (C.foldl rotMonthStep s).global_usage) P = gx :: rest)
    (gy : String) (hy : gy ∈ (C.foldl rotMonthStep s).month_used) :
    gx ≠ gy := by
  have hlen : (C.foldl rotMonthStep s).month_used.length < P.length := by
    have h1 := rotRun_mu_len C s
    rw [hmu] at h1
    simp only [List.length_nil] at h1
    have h2 : rotCount L = rotCount C + rotCount (x :: D) := by
      rw [hdec, rotCount_append]
    have h3 : rotCount (x :: D) = rotCount D + 1 := by
      rw [rotCount_cons, hgrp, if_pos rfl]
    omega
  rcases rot_pick_fresh _ _ P hnd hlen gx rest hsort with ⟨hgx, _⟩
  intro heq
  rw [heq] at hgx
  exact hgx hy

theorem rotMonthRun_entry : ∀ (L : List (Nat × Event)) (s : RotState) (i : Nat) (gi : String),
    (i, gi) ∈ (L.foldl rotMonthStep s).choices →
    (i, gi) ∈ s.choices ∨
    ∃ A ie B, L = A ++ ie :: B ∧ ie.1 = i ∧ isGroupRotEvent ie.2 = true ∧
      ∃ rest, sSort (rotCandLt (A.foldl rotMonthStep s).month_used
        (A.foldl rotMonthStep s).global_usage) (ie.2.rotation_pool.getD []) = gi :: rest := by
  intro L
  induction L with
  | nil =>
    intro s i gi h
    exact Or.inl h
  | cons ie t ih =>
    intro s i gi h
    rw [List.foldl_cons] at h
    rcases ih (rotMonthStep s ie) i gi h with h1 | ⟨A, ie2, B, hdec, hfst, hgrp, rest, hsort⟩
    · rcases rotMonthStep_char s ie with hc | ⟨hgrp0, g, rest0, hsort0, hc⟩
      · rw [hc] at h1
        exact Or.inl h1
      · rw [hc] at h1
        simp only at h1
        rcases List.mem_append.mp h1 with h3 | h3
        · exact Or.inl h3
        · have heq := List.mem_singleton.mp h3
          have hie : ie.1 = i := (congrArg Prod.fst heq).symm
          have hgig : gi = g := congrArg Prod.snd heq
          refine Or.inr ⟨[], ie, t, rfl, hie, hgrp0, rest0, ?_⟩
          rw [hgig]
          exact hsort0
    · refine Or.inr ⟨ie :: A, ie2, B, by rw [hdec]; rfl, hfst, hgrp, rest, ?_⟩
      rw [List.foldl_cons]
      exact hsort

/-- Distinctness of the picks of two group events sharing pool `P` inside a
single month, provided `P` holds at least as many groups as the month has
group events. -/
theorem rotMonthRun_distinct (L : List (Nat × Event)) (s : RotState)
    (hmu : s.month_used = []) (hLnd : ((L.map Prod.fst)).Nodup)
    (i j : Nat) (ei ej : Event) (P : List String)
    (hiL : (i, ei) ∈ L) (hjL : (j, ej) ∈ L) (hij : i ≠ j)
    (hpi : ei.rotation_pool = some P) (hpj : ej.rotation_pool = some P)
    (hnd : P.Nodup) (hcount : rotCount L ≤ P.length)
    (gi gj : String)
    (hgiM : (i, gi) ∈ (L.foldl rotMonthStep s).choices) (hgiS : (i, gi) ∉ s.choices)
    (hgjM : (j, gj) ∈ (L.foldl rotMonthStep s).choices) (hgjS : (j, gj) ∉ s.choices) :
    gi ≠ gj := by
  rcases rotMonthRun_entry L s i gi hgiM with h | ⟨A, iex, B, hdecA, hfstA, hgrpA, restA, hsortA⟩
  · exact absurd h hgiS
  rcases rotMonthRun_entry L s j gj hgjM with h | ⟨C, jex, D, hdecC, hfstC, hgrpC, restC, hsortC⟩
  · exact absurd h hgjS
  have hiexeta : iex = (i, iex.2) := by
    rw [← hfstA]
  have hjexeta : jex = (j, jex.2) := by
    rw [← hfstC]
  have hiexL : iex ∈ L := by
    rw [hdecA]
    exact List.mem_append_right _ (List.mem_cons_self _ _)
  have hjexL : jex ∈ L := by
    rw [hdecC]
    exact List.mem_append_right _ (List.mem_cons_self _ _)
  have hiex2 : iex.2 = ei := key_mem_unique L hLnd i iex.2 ei (hiexeta ▸ hiexL) hiL
  have hjex2 : jex.2 = ej := key_mem_unique L hLnd j jex.2 ej (hjexeta ▸ hjexL) hjL
  have hPi : iex.2.rotation_pool.getD [] = P := by
    rw [hiex2, hpi]
    rfl
  have hPj : jex.2.rotation_pool.getD [] = P := by
    rw [hjex2, hpj]
    rfl
  have hne : iex ≠ jex := by
    intro heq
    refine hij ?_
    rw [← hfstA, ← hfstC, heq]
  -- where does jex sit relative to iex?
  rcases List.mem_append.mp (hdecA ▸ hjexL) with hjA | hjB
  · -- jex occurs before iex: gj is in the month-used set when gi is picked
    rcases List.mem_iff_append.mp hjA with ⟨A1, A2, hA⟩
    have hdec2 : L = A1 ++ jex :: (A2 ++ iex :: B) := by
      rw [hdecA, hA]
      simp
    have huniq := nodup_key_decomp C D A1 (A2 ++ iex :: B) jex jex
      (by rw [← hdecC]; exact hLnd) (by rw [← hdec2, hdecC]) rfl
    -- gj entry is appended at jex's step inside A
    have hgjA : (j, gj) ∈ (A.foldl rotMonthStep s).choices := by
      have hstep : (rotMonthStep (C.foldl rotMonthStep s) jex).choices =
          (C.foldl rotMonthStep s).choices ++ [(j, gj)] := by
        have := rotMonthStep_append_choice (C.foldl rotMonthStep s) jex hgrpC gj restC hsortC
        rw [hfstC] at this
        exact this
      have hAfold : A.foldl rotMonthStep s =
          A2.foldl rotMonthStep (rotMonthStep (C.foldl rotMonthStep s) jex) := by
        rw [hA, ← huniq.1]
        rw [List.foldl_append]
        rfl
      rw [hAfold]
      refine rotRun_choices_mono A2 _ _ ?_
      rw [hstep]
      exact List.mem_append_right _ (List.mem_cons_self _ _)
    have hgjmu : gj ∈ (A.foldl rotMonthStep s).month_used := by
      rcases rotRun_choices_in_mu A s (j, gj) hgjA with h | h
      · exact absurd h hgjS
      · exact h
    exact (rot_core L A B iex s hmu hdecA hgrpA P hPi hnd hcount gi restA
      (by rw [← hPi]; exact hsortA) gj hgjmu)
  · -- iex occurs before jex: gi is in the month-used set when gj is picked
    rcases List.mem_cons.mp hjB with hjx | hjB2
    · exact absurd hjx.symm hne
    rcases List.mem_iff_append.mp hjB2 with ⟨B1, B2, hB⟩
    have hdec2 : L = (A ++ iex :: B1) ++ jex :: B2 := by
      rw [hdecA, hB]
      simp
    have huniq := nodup_key_decomp C D (A ++ iex :: B1) B2 jex jex
      (by rw [← hdecC]; exact hLnd) (by rw [← hdec2, hdecC]) rfl
    have hgiC : (i, gi) ∈ (C.foldl rotMonthStep s).choices := by
      have hstep : (rotMonthStep (A.foldl rotMonthStep s) iex).choices =
          (A.foldl rotMonthStep s).choices ++ [(i, gi)] := by
        have := rotMonthStep_append_choice (A.foldl rotMonthStep s) iex hgrpA gi restA hsortA
        rw [hfstA] at this
        exact this
      have hCfold : C.foldl rotMonthStep s =
          B1.foldl rotMonthStep (rotMonthStep (A.foldl rotMonthStep s) iex) := by
        rw [huniq.1]
        rw [List.foldl_append]
        rfl
      rw [hCfold]
      refine rotRun_choices_mono B1 _ _ ?_
      rw [hstep]
      exact List.mem_append_right _ (List.mem_cons_self _ _)
    have hgimu : gi ∈ (C.foldl rotMonthStep s).month_used := by
      rcases rotRun_choices_in_mu C s (i, gi) hgiC with h | h
      · exact absurd h hgiS
      · exact h
    exact (rot_core L C D jex s hmu hdecC hgrpC P hPj hnd hcount gj restC
      (by rw [← hPj]; exact hsortC) gi hgimu).symm

/-! ## Cross-month glue for the pre-pass -/

theorem insertKey_mem (ks : List (Nat × Nat)) (k k2 : Nat × Nat) :
    k2 ∈ insertKeyIfAbsent ks k ↔ k2 ∈ ks ∨ k2 = k := by
  simp only [insertKeyIfAbsent]
  split
  · rename_i hk
    constructor
    · exact Or.inl
    · intro h
      rcases h with h | h
      · exact h
      · rw [h]; exact hk
  · simp [List.mem_append]

theorem insertKey_nodup (ks : List (Nat × Nat)) (k : Nat × Nat) (h : ks.Nodup) :
    (insertKeyIfAbsent ks k).Nodup := by
  simp only [insertKeyIfAbsent]
  split
  · exact h
  · rename_i hk
    simp [List.nodup_append, h, hk]

theorem monthKeysOf_fold_mono : ∀ (l : List Event) (ks : List (Nat × Nat)) (k : Nat × Nat),
    k ∈ ks → k ∈ l.foldl (fun ks e => insertKeyIfAbsent ks (monthKeyOf e)) ks := by
  intro l
  induction l with
  | nil => intro ks k h; exact h
  | cons e t ih =>
    intro ks k h
    rw [List.foldl_cons]
    exact ih _ k ((insertKey_mem _ _ _).mpr (Or.inl h))

theorem monthKeysOf_fold_complete : ∀ (l : List Event) (ks : List (Nat × Nat)) (e : Event),
    e ∈ l → monthKeyOf e ∈ l.foldl (fun ks e => insertKeyIfAbsent ks (monthKeyOf e)) ks := by
  intro l
  induction l with
  | nil =>
    intro ks e h
    exact absurd h (List.not_mem_nil e)
  | cons f t ih =>
    intro ks e h
    rw [List.foldl_cons]
    rcases List.mem_cons.mp h with h1 | h1
    · rw [h1]
      exact monthKeysOf_fold_mono t _ _ ((insertKey_mem _ _ _).mpr (Or.inr rfl))
    · exact ih _ e h1

theorem monthKeysOf_complete (events : List Event) (e : Event) (h : e ∈ events) :
    monthKeyOf e ∈ monthKeysOf events :=
  monthKeysOf_fold_complete events [] e h

theorem monthKeysOf_nodup (events : List Event) : (monthKeysOf events).Nodup := by
  have main : ∀ (l : List Event) (ks : List (Nat × Nat)), ks.Nodup →
      (l.foldl (fun ks e => insertKeyIfAbsent ks (monthKeyOf e)) ks).Nodup := by
    intro l
    induction l with
    | nil => intro ks h; exact h
    | cons f t ih =>
      intro ks h
      rw [List.foldl_cons]
      exact ih _ (insertKey_nodup _ _ h)
  exact main events [] List.nodup_nil

theorem mem_rotBucket (events : List Event) (k : Nat × Nat) (ie : Nat × Event) :
    ie ∈ rotBucket events k ↔ ie ∈ events.enum ∧ monthKeyOf ie.2 = k := by
  simp only [rotBucket, List.mem_filter, beq_iff_eq]

theorem enum_fst_nodup (events : List Event) : ((events.enum.map Prod.fst)).Nodup := by
  rw [List.enum_map_fst]
  exact List.nodup_range _

theorem sortedBucket_fst_nodup (events : List Event) (k : Nat × Nat) :
    (((sSort evDateDescLt (rotBucket events k)).map Prod.fst)).Nodup := by
  have h1 : ((rotBucket events k).map Prod.fst).Nodup := by
    refine List.Nodup.sublist ?_ (enum_fst_nodup events)
    exact (List.filter_sublist _).map Prod.fst
  exact ((sSort_perm _ _).map Prod.fst).nodup_iff.mpr h1

theorem keysFold_choices_mono (events : List Event) :
    ∀ (ks : List (Nat × Nat)) (s : RotState) (p : Nat × String), p ∈ s.choices →
    p ∈ (ks.foldl (fun s k => (sSort evDateDescLt (rotBucket events k)).foldl rotMonthStep
      { s with month_used := [] }) s).choices := by
  intro ks
  induction ks with
  | nil => intro s p h; exact h
  | cons k t ih =>
    intro s p h
    rw [List.foldl_cons]
    refine ih _ p ?_
    exact rotRun_choices_mono _ _ p h

theorem keysFold_keys (events : List Event) :
    ∀ (ks : List (Nat × Nat)) (s : RotState) (p : Nat × String),
    p ∈ (ks.foldl (fun s k => (sSort evDateDescLt (rotBucket events k)).foldl rotMonthStep
      { s with month_used := [] }) s).choices →
    p ∈ s.choices ∨ ∃ k ∈ ks, ∃ e : Event, (p.1, e) ∈ events.enum ∧ monthKeyOf e = k := by
  intro ks
  induction ks with
  | nil => intro s p h; exact Or.inl h
  | cons k t ih =>
    intro s p h
    rw [List.foldl_cons] at h
    rcases ih _ p h with h1 | ⟨k2, hk2, e, he, hke⟩
    · rcases rotMonthRun_mem _ _ p h1 with h2 | ⟨ie, hie, hfst, _, _⟩
      · exact Or.inl h2
      · have hie2 : ie ∈ rotBucket events k := (mem_sSort _ _ ie).mp hie
        rcases (mem_rotBucket events k ie).mp hie2 with ⟨hienum, hiek⟩
        refine Or.inr ⟨k, List.mem_cons_self _ _, ie.2, ?_, hiek⟩
        rw [hfst]
        have : (ie.1, ie.2) = ie := rfl
        rw [this]
        exact hienum
    · exact Or.inr ⟨k2, List.mem_cons_of_mem _ hk2, e, he, hke⟩

theorem lookup_nodup {β : Type} : ∀ (l : List (Nat × β)),
    ((l.map Prod.fst)).Nodup → ∀ (a : Nat) (b : β), (a, b) ∈ l → l.lookup a = some b := by
  intro l
  induction l with
  | nil =>
    intro _ a b h
    exact absurd h (List.not_mem_nil _)
  | cons p t ih =>
    intro hnd a b h
    rw [List.map_cons] at hnd
    have hnd2 := List.nodup_cons.mp hnd
    rw [List.lookup]
    rcases List.mem_cons.mp h with h1 | h1
    · have hk : (a == p.1) = true := by rw [← h1]; simp
      rw [hk]
      rw [← h1]
    · have hk : (a == p.1) = false := by
        refine beq_eq_false_iff_ne.mpr ?_
        intro he
        refine hnd2.1 ?_
        rw [← he]
        exact List.mem_map_of_mem Prod.fst h1
      rw [hk]
      exact ih hnd2.2 a b h1

theorem isGroupRot_pool_ne (e : Event) (h : isGroupRotEvent e = true) :
    e.rotation_pool.getD [] ≠ [] := by
  simp only [isGroupRotEvent, Bool.and_eq_true] at h
  rcases h with ⟨_, h2⟩
  cases hp : e.rotation_pool with
  | none => rw [hp] at h2; simp at h2
  | some l =>
    cases l with
    | nil => rw [hp] at h2; simp at h2
    | cons a t => simp

theorem rotMonthRun_exists : ∀ (L : List (Nat × Event)) (s : RotState) (i : Nat) (ei : Event),
    (i, ei) ∈ L → isGroupRotEvent ei = true →
    ∃ gi, (i, gi) ∈ (L.foldl rotMonthStep s).choices := by
  intro L
  induction L with
  | nil =>
    intro s i ei h _
    exact absurd h (List.not_mem_nil _)
  | cons ie t ih =>
    intro s i ei h hgrp
    rw [List.foldl_cons]
    rcases List.mem_cons.mp h with h1 | h1
    · have hgrp2 : isGroupRotEvent ie.2 = true := by rw [← h1]; exact hgrp
      have hpool : ie.2.rotation_pool.getD [] ≠ [] := isGroupRot_pool_ne ie.2 hgrp2
      cases hs : sSort (rotCandLt s.month_used s.global_usage) (ie.2.rotation_pool.getD []) with
      | nil =>
        exfalso
        have hlen := (sSort_perm (rotCandLt s.month_used s.global_usage)
          (ie.2.rotation_pool.getD [])).length_eq
        rw [hs] at hlen
        simp only [List.length_nil] at hlen
        exact hpool (List.length_eq_zero.mp hlen.symm)
      | cons g rest =>
        refine ⟨g, ?_⟩
        have hch := rotMonthStep_append_choice s ie hgrp2 g rest hs
        refine rotRun_choices_mono t _ _ ?_
        rw [hch]
        have hi : ie.1 = i := by rw [← h1]
        rw [hi]
        exact List.mem_append_right _ (List.mem_cons_self _ _)
    · exact ih (rotMonthStep s ie) i ei h1 hgrp

theorem rotRun_keys_nodup : ∀ (L : List (Nat × Event)) (s : RotState),
    ((L.map Prod.fst)).Nodup → ((s.choices.map Prod.fst)).Nodup →
    (∀ a ∈ s.choices.map Prod.fst, a ∉ L.map Prod.fst) →
    (((L.foldl rotMonthStep s).choices.map Prod.fst)).Nodup := by
  intro L
  induction L with
  | nil =>
    intro s _ h _
    exact h
  | cons ie t ih =>
    intro s hL hs hdisj
    rw [List.foldl_cons]
    rw [List.map_cons] at hL
    have hL2 := List.nodup_cons.mp hL
    rcases rotMonthStep_char s ie with hc | ⟨_, g, rest, _, hc⟩
    · rw [hc]
      refine ih s hL2.2 hs ?_
      intro a ha hmem
      have h0 := hdisj a ha
      rw [List.map_cons] at h0
      exact h0 (List.mem_cons_of_mem _ hmem)
    · rw [hc]
      refine ih _ hL2.2 ?_ ?_
      · simp only [List.map_append, List.map_cons, List.map_nil]
        rw [List.nodup_append]
        refine ⟨hs, List.nodup_singleton _, ?_⟩
        intro a ha hb
        have hb2 : a = ie.1 := List.mem_singleton.mp hb
        have h0 := hdisj a ha
        rw [List.map_cons] at h0
        exact h0 (by rw [hb2]; exact List.mem_cons_self _ _)
      · intro a ha
        simp only [List.map_append, List.map_cons, List.map_nil] at ha
        rcases List.mem_append.mp ha with h1 | h1
        · have h0 := hdisj a h1
          rw [List.map_cons] at h0
          intro hmem
          exact h0 (List.mem_cons_of_mem _ hmem)
        · have hb2 : a = ie.1 := List.mem_singleton.mp h1
          rw [hb2]
          exact hL2.1

theorem enum_key_unique (events : List Event) (i : Nat) (e e2 : Event)
    (h1 : (i, e) ∈ events.enum) (h2 : (i, e2) ∈ events.enum) : e = e2 :=
  key_mem_unique events.enum (enum_fst_nodup events) i e e2 h1 h2

theorem keysFold_nodup (events : List Event) : ∀ (ks : List (Nat × Nat)) (s : RotState),
    ks.Nodup → ((s.choices.map Prod.fst)).Nodup →
    (∀ a ∈ s.choices.map Prod.fst, ∀ e : Event, (a, e) ∈ events.enum → monthKeyOf e ∉ ks) →
    (((ks.foldl (fun s k => (sSort evDateDescLt (rotBucket events k)).foldl rotMonthStep
      { s with month_used := [] }) s).choices.map Prod.fst)).Nodup := by
  intro ks
  induction ks with
  | nil =>
    intro s _ h _
    exact h
  | cons k t ih =>
    intro s hks hs hinv
    rw [List.foldl_cons]
    have hks2 := List.nodup_cons.mp hks
    have hdisj : ∀ a ∈ s.choices.map Prod.fst,
        a ∉ (sSort evDateDescLt (rotBucket events k)).map Prod.fst := by
      intro a ha hmem
      rcases List.mem_map.mp hmem with ⟨ie, hie, hfst⟩
      have hie2 := (mem_sSort _ _ ie).mp hie
      rcases (mem_rotBucket events k ie).mp hie2 with ⟨hienum, hiek⟩
      have hae : (a, ie.2) ∈ events.enum := by
        rw [← hfst]
        exact hienum
      exact hinv a ha ie.2 hae (by rw [hiek]; exact List.mem_cons_self _ _)
    have hnod2 : ((((sSort evDateDescLt (rotBucket events k)).foldl rotMonthStep
        { s with month_used := [] }).choices.map Prod.fst)).Nodup :=
      rotRun_keys_nodup _ { s with month_used := [] } (sortedBucket_fst_nodup events k) hs hdisj
    refine ih _ hks2.2 hnod2 ?_
    intro a ha e hae
    rcases List.mem_map.mp ha with ⟨p, hp, hpa⟩
    rcases rotMonthRun_mem _ _ p hp with h1 | ⟨ie, hie, hfst, _, _⟩
    · have h0 := hinv a (by rw [← hpa]; exact List.mem_map_of_mem Prod.fst h1) e hae
      intro hm
      exact h0 (List.mem_cons_of_mem _ hm)
    · have hie2 := (mem_sSort _ _ ie).mp hie
      rcases (mem_rotBucket events k ie).mp hie2 with ⟨hienum, hiek⟩
      have haie : a = ie.1 := by rw [← hpa, hfst]
      have hienum2 : (ie.1, ie.2) ∈ events.enum := hienum
      have he : e = ie.2 := enum_key_unique events ie.1 e ie.2 (by rw [← haie]; exact hae) hienum2
      rw [he, hiek]
      exact hks2.1

theorem rotPrePass_keys_nodup (events : List Event) :
    (((rotPrePass events).map Prod.fst)).Nodup := by
  have h := keysFold_nodup events (monthKeysOf events) {} (monthKeysOf_nodup events)
    (by simp) (by intro a ha e hae hk; simp at ha)
  exact h

theorem rotPrePass_split (events : List Event) (K1 K2 : List (Nat × Nat)) (k : Nat × Nat)
    (hks : monthKeysOf events = K1 ++ k :: K2) :
    rotPrePass events = (K2.foldl
      (fun s k => (sSort evDateDescLt (rotBucket events k)).foldl rotMonthStep
        { s with month_used := [] })
      ((sSort evDateDescLt (rotBucket events k)).foldl rotMonthStep
        { (K1.foldl (fun s k => (sSort evDateDescLt (rotBucket events k)).foldl rotMonthStep
            { s with month_used := [] }) {}) with month_used := [] })).choices := by
  simp only [rotPrePass]
  rw [hks, List.foldl_append, List.foldl_cons]

theorem rotPrePass_entry_local (events : List Event) (K1 K2 : List (Nat × Nat)) (k : Nat × Nat)
    (hks : monthKeysOf events = K1 ++ k :: K2)
    (hkK1 : k ∉ K1) (hkK2 : k ∉ K2)
    (i : Nat) (ei : Event) (hie : (i, ei) ∈ events.enum) (hkey : monthKeyOf ei = k)
    (gi : String) (hgi : (i, gi) ∈ rotPrePass events) :
    (i, gi) ∈ ((sSort evDateDescLt (rotBucket events k)).foldl rotMonthStep
      { (K1.foldl (fun s k => (sSort evDateDescLt (rotBucket events k)).foldl rotMonthStep
          { s with month_used := [] }) {}) with month_used := [] }).choices ∧
    (i, gi) ∉ (K1.foldl (fun s k => (sSort evDateDescLt (rotBucket events k)).foldl rotMonthStep
          { s with month_used := [] }) ({} : RotState)).choices := by
  have hsplit := rotPrePass_split events K1 K2 k hks
  rw [hsplit] at hgi
  constructor
  · rcases keysFold_keys events K2 _ (i, gi) hgi with h1 | ⟨k2, hk2, e, he, hke⟩
    · exact h1
    · exfalso
      have he2 : e = ei := enum_key_unique events i e ei he hie
      rw [he2, hkey] at hke
      rw [hke] at hkK2
      exact hkK2 hk2
  · intro hmem
    rcases keysFold_keys events K1 {} (i, gi) hmem with h1 | ⟨k1, hk1, e, he, hke⟩
    · exact absurd h1 (List.not_mem_nil _)
    · have he2 : e = ei := enum_key_unique events i e ei he hie
      rw [he2, hkey] at hke
      rw [hke] at hkK1
      exact hkK1 hk1

theorem rotPrePass_exists (events : List Event) (K1 K2 : List (Nat × Nat)) (k : Nat × Nat)
    (hks : monthKeysOf events = K1 ++ k :: K2)
    (i : Nat) (ei : Event) (hie : (i, ei) ∈ events.enum) (hkey : monthKeyOf ei = k)
    (hgrp : isGroupRotEvent ei = true) :
    ∃ gi, (i, gi) ∈ rotPrePass events := by
  have hiL : (i, ei) ∈ sSort evDateDescLt (rotBucket events k) :=
    (mem_sSort _ _ _).mpr ((mem_rotBucket events k (i, ei)).mpr ⟨hie, hkey⟩)
  obtain ⟨gi, hgi⟩ := rotMonthRun_exists _
    { (K1.foldl (fun s k => (sSort evDateDescLt (rotBucket events k)).foldl rotMonthStep
        { s with month_used := [] }) {}) with month_used := [] } i ei hiL hgrp
  refine ⟨gi, ?_⟩
  rw [rotPrePass_split events K1 K2 k hks]
  exact keysFold_choices_mono events K2 _ (i, gi) hgi

theorem rotCount_sortedBucket (events : List Event) (k : Nat × Nat) :
    rotCount (sSort evDateDescLt (rotBucket events k)) = monthGroupCount events k := by
  simp only [rotCount, monthGroupCount]
  rw [(sSort_perm evDateDescLt (rotBucket events k)).countP_eq]
  simp only [rotBucket]
  rw [List.countP_filter]
  have h1 : ∀ ie ∈ events.enum,
      ((fun ie : Nat × Event => isGroupRotEvent ie.2) ie
        && ((fun ie : Nat × Event => monthKeyOf ie.2 == k) ie)) = true ↔
      ((fun e => monthKeyOf e == k && isGroupRotEvent e) ∘ Prod.snd) ie = true := by
    intro ie _
    simp [Bool.and_comm]
  rw [List.countP_congr h1, ← List.countP_map, List.enum_map_snd]

/-- C5 (amended): after the group-rotation pre-pass, two group-mode events
of the same `(year, month)` sharing a duplicate-free rotation pool `P`
resolve to distinct responsible groups, provided `P` holds at least as many
groups as the month has group-mode events with a non-empty rotation pool
in total (not merely the events sharing `P`: the pre-pass's month-used set
is shared across all group-mode events of the month). -/
theorem group_rotation_monthly_distinct (events : List Event)
    (i j : Nat) (ei ej : Event) (P : List String)
    (hie : events.get? i = some ei) (hje : events.get? j = some ej)
    (hij : i ≠ j) (hkeyj : monthKeyOf ej = monthKeyOf ei)
    (hgri : isGroupRotEvent ei = true) (hgrj : isGroupRotEvent ej = true)
    (hpi : ei.rotation_pool = some P) (hpj : ej.rotation_pool = some P)
    (hndP : P.Nodup)
    (hcount : monthGroupCount events (monthKeyOf ei) ≤ P.length) :
    ∃ gi gj, (prePassEvents events).get? i = some { ei with responsible_group := some gi } ∧
      (prePassEvents events).get? j = some { ej with responsible_group := some gj } ∧
      gi ≠ gj := by
  have hie' : (i, ei) ∈ events.enum := List.mk_mem_enum_iff_get?.mpr hie
  have hje' : (j, ej) ∈ events.enum := List.mk_mem_enum_iff_get?.mpr hje
  have hkmem : monthKeyOf ei ∈ monthKeysOf events :=
    monthKeysOf_complete events ei (List.get?_mem hie)
  obtain ⟨K1, K2, hks⟩ := List.mem_iff_append.mp hkmem
  have hksnd : (K1 ++ monthKeyOf ei :: K2).Nodup := by
    rw [← hks]
    exact monthKeysOf_nodup events
  obtain ⟨-, hnd2, hdisj12⟩ := List.nodup_append.mp hksnd
  have hkK2 : monthKeyOf ei ∉ K2 := (List.nodup_cons.mp hnd2).1
  have hkK1 : monthKeyOf ei ∉ K1 := fun hk => hdisj12 hk (List.mem_cons_self _ _)
  obtain ⟨gi, hgimem⟩ := rotPrePass_exists events K1 K2 _ hks i ei hie' rfl hgri
  obtain ⟨gj, hgjmem⟩ := rotPrePass_exists events K1 K2 _ hks j ej hje' hkeyj hgrj
  obtain ⟨hgi2, hgiS⟩ := rotPrePass_entry_local events K1 K2 _ hks hkK1 hkK2 i ei hie' rfl gi hgimem
  obtain ⟨hgj2, hgjS⟩ := rotPrePass_entry_local events K1 K2 _ hks hkK1 hkK2 j ej hje' hkeyj gj hgjmem
  have hiL : (i, ei) ∈ sSort evDateDescLt (rotBucket events (monthKeyOf ei)) :=
    (mem_sSort _ _ _).mpr ((mem_rotBucket events _ (i, ei)).mpr ⟨hie', rfl⟩)
  have hjL : (j, ej) ∈ sSort evDateDescLt (rotBucket events (monthKeyOf ei)) :=
    (mem_sSort _ _ _).mpr ((mem_rotBucket events _ (j, ej)).mpr ⟨hje', hkeyj⟩)
  have hcount2 : rotCount (sSort evDateDescLt (rotBucket events (monthKeyOf ei))) ≤ P.length := by
    rw [rotCount_sortedBucket]
    exact hcount
  have hne : gi ≠ gj :=
    rotMonthRun_distinct _ _ rfl (sortedBucket_fst_nodup events (monthKeyOf ei))
      i j ei ej P hiL hjL hij hpi hpj hndP hcount2 gi gj hgi2 hgiS hgj2 hgjS
  have hknd := rotPrePass_keys_nodup events
  have hlooki : (rotPrePass events).lookup i = some gi := lookup_nodup _ hknd i gi hgimem
  have hlookj : (rotPrePass events).lookup j = some gj := lookup_nodup _ hknd j gj hgjmem
  refine ⟨gi, gj, ?_, ?_, hne⟩
  · simp only [prePassEvents]
    rw [List.get?_map, List.get?_enum, hie]
    simp only [Option.map_some']
    rw [hlooki]
  · simp only [prePassEvents]
    rw [List.get?_map, List.get?_enum, hje]
    simp only [Option.map_some']
    rw [hlookj]

/-- C5 counterexample to the original claim: in `exC5Events`, exactly two
group-mode events of January 2026 share the duplicate-free pool
`["g1", "g2"]` (pool size 2 ≥ 2 sharing events), yet after the pre-pass
both resolve to `"g1"`: the interleaved event with pool `["g2"]` consumes
`"g2"` from the shared month-used set. -/
theorem group_rotation_monthly_distinct_cex :
    exC5Events.countP
      (fun e => decide (monthKeyOf e = (2026, 1) ∧ e.rotation_pool = some ["g1", "g2"])) = 2 ∧
    (["g1", "g2"] : List String).Nodup ∧
    (exC5Events.get? 0).map Event.rotation_pool = some (some ["g1", "g2"]) ∧
    (exC5Events.get? 2).map Event.rotation_pool = some (some ["g1", "g2"]) ∧
    (exC5Events.get? 0).map monthKeyOf = some (2026, 1) ∧
    (exC5Events.get? 2).map monthKeyOf = some (2026, 1) ∧
    ((prePassEvents exC5Events).get? 0).map Event.responsible_group = some (some "g1") ∧
    ((prePassEvents exC5Events).get? 2).map Event.responsible_group = some (some "g1") := by
  decide

/-- Witness for C5: on a two-event month sharing the pool `["g1", "g2"]`
(the amended bound `monthGroupCount ≤ |P|` holds with 2 ≤ 2), the pre-pass
resolves the two events to distinct groups. -/
theorem group_rotation_monthly_distinct_witness :
    monthGroupCount
        [evGroupMode ⟨2026, 1, 5⟩ "a" ["g1", "g2"], evGroupMode ⟨2026, 1, 19⟩ "c" ["g1", "g2"]]
        (monthKeyOf (evGroupMode ⟨2026, 1, 5⟩ "a" ["g1", "g2"])) ≤
      (["g1", "g2"] : List String).length ∧
    ∃ gi gj,
      (prePassEvents
          [evGroupMode ⟨2026, 1, 5⟩ "a" ["g1", "g2"],
            evGroupMode ⟨2026, 1, 19⟩ "c" ["g1", "g2"]]).get? 0 =
        some { evGroupMode ⟨2026, 1, 5⟩ "a" ["g1", "g2"] with responsible_group := some gi } ∧
      (prePassEvents
          [evGroupMode ⟨2026, 1, 5⟩ "a" ["g1", "g2"],
            evGroupMode ⟨2026, 1, 19⟩ "c" ["g1", "g2"]]).get? 1 =
        some { evGroupMode ⟨2026, 1, 19⟩ "c" ["g1", "g2"] with responsible_group := some gj } ∧
      gi ≠ gj :=
  ⟨by decide,
    group_rotation_monthly_distinct
      [evGroupMode ⟨2026, 1, 5⟩ "a" ["g1", "g2"], evGroupMode ⟨2026, 1, 19⟩ "c" ["g1", "g2"]]
      0 1 (evGroupMode ⟨2026, 1, 5⟩ "a" ["g1", "g2"]) (evGroupMode ⟨2026, 1, 19⟩ "c" ["g1", "g2"])
      ["g1", "g2"] rfl rfl (by decide) rfl (by decide) (by decide) rfl rfl (by decide) (by decide)⟩
